import Mathlib

/-!
Verification of the VSCode editor plugin (`src/common/editor_vscode.py`).

The module is a thin orchestration layer: it gathers paths from the database
object, renders named templates with keyword substitutions, and writes the
rendered output to fixed locations under the project root.

Embedding conventions:
* A filesystem path is a list of segments (absolute, already resolved;
  `Path.resolve` is therefore the identity in this model).
* The filesystem is an explicit structure holding the list of existing
  directory paths and file paths; `exists`, `is_dir` and `iterdir` are
  computed from it.  `iterdir` enumerates children in list order, which is
  arbitrary, exactly as the OS order is; order-independence is proved, not
  assumed.
* Template rendering (jinja2) is an external collaborator: it is passed in
  as an opaque function argument `render : templateName → substitutions →
  String`, and `configure` records which template it rendered with which
  substitutions, in source order.
* `configure` is modelled as a pure function from the editor object and the
  filesystem to the bundle of its observable effects: warnings, info logs,
  directories created and files written (path together with full new
  content; every write opens the file with mode "w", truncating it).
-/

/-- A filesystem path, as its list of segments from the root. -/
abbrev FPath := List String

/-- Rendering of an absolute path as a string, as `str(Path(...))` does on a
posix system. -/
def pathStr (p : FPath) : String := "/" ++ String.intercalate "/" p

/-- The last segment of a path (`Path.name` in the source). -/
def lastSeg (p : FPath) : String := p.getLastD ""

/-- Length of the longest common segment prefix of two paths. -/
def commonLen : FPath → FPath → Nat
  | a :: as, b :: bs => if a = b then commonLen as bs + 1 else 0
  | _, _ => 0

/-- Segments of `os.path.relpath(target, start)` for already-resolved
absolute paths: climb out of the non-shared part of `start` with `..`
segments, then descend into the non-shared part of `target`. -/
def relpathSegs (target start : FPath) : List String :=
  let c := commonLen start target
  List.replicate (start.length - c) ".." ++ target.drop c

/-- `os.path.relpath(target, start)` for already-resolved absolute paths. -/
def relpath (target start : FPath) : String :=
  let segs := relpathSegs target start
  if segs = [] then "." else String.intercalate "/" segs

/-- The filesystem state: the set of existing directories and of existing
regular files, as lists (the list order models the arbitrary on-disk
enumeration order of `iterdir`). -/
structure FS where
  dirs : List FPath
  files : List FPath
deriving DecidableEq

/-- `Path.exists()`. -/
def FS.existsPath (fs : FS) (p : FPath) : Bool :=
  p ∈ fs.dirs ∨ p ∈ fs.files

/-- `Path.is_dir()`. -/
def FS.isDir (fs : FS) (p : FPath) : Bool :=
  p ∈ fs.dirs

/-- Is `q` an immediate child of `d`? -/
def isChildOf (d q : FPath) : Bool :=
  q.length = d.length + 1 ∧ d <+: q

/-- `Path.iterdir()`: the immediate children of `d`, in the (arbitrary)
enumeration order induced by the filesystem representation. -/
def FS.iterdir (fs : FS) (d : FPath) : List FPath :=
  (fs.dirs ++ fs.files).filter (isChildOf d)

/-- Well-formedness of a filesystem: no path is listed twice (or both as a
directory and as a file), and the parent of any existing path exists and is
a directory. -/
def FS.WF (fs : FS) : Prop :=
  (fs.dirs ++ fs.files).Nodup ∧
    ∀ q ∈ fs.dirs ++ fs.files, 2 ≤ q.length → q.dropLast ∈ fs.dirs

instance (fs : FS) : Decidable fs.WF := by
  unfold FS.WF; infer_instance

/-- `LocalDatabase`: a database with a filesystem presence on this machine.
Fields are the ones the plugin reads: display name, version string, worktree
identifier, virtual-environment interpreter path (`venv.python.as_posix()`),
and the owning tool's install path and worktrees path (`odev.path`,
`odev.worktrees_path`). -/
structure LocalDatabase where
  name : String
  version : String
  worktree : String
  venvPython : String
  odevPath : FPath
  worktreesPath : FPath
deriving DecidableEq

/-- A database is either local or non-local; a non-local database still has
a name but no filesystem presence. -/
inductive Database where
  | lokal (db : LocalDatabase)
  | remote (name : String)
deriving DecidableEq

/-- `self.database.name`: every database exposes a name. -/
def Database.dbName : Database → String
  | .lokal db => db.name
  | .remote n => n

/-- The error type raised by the plugin (`OdevError`). -/
structure OdevError where
  msg : String
deriving DecidableEq

/-- The editor object: project root path (`self.path`), associated database,
git repository name (`self.git.name`) and the running tool's interpreter
path (`PythonEnv().python.as_posix()`). -/
structure VSCodeEditor where
  path : FPath
  database : Database
  gitName : String
  envPython : String
deriving DecidableEq

/-- `_name = "code"`. -/
def vscodeName : String := "code"

/-- `workspace_directory`: the path to the workspace directory,
`self.path / ".vscode"`. -/
def workspace_directory (e : VSCodeEditor) : FPath :=
  e.path ++ [".vscode"]

/-- `workspace_path`: the path to the workspace file,
`workspace_directory / f"{database.name}.code-workspace"`. -/
def workspace_path (e : VSCodeEditor) : FPath :=
  workspace_directory e ++ [e.database.dbName ++ ".code-workspace"]

/-- `launch_path`: the path to the launch file. -/
def launch_path (e : VSCodeEditor) : FPath :=
  workspace_directory e ++ ["launch.json"]

/-- `tasks_path`: the path to the tasks file. -/
def tasks_path (e : VSCodeEditor) : FPath :=
  workspace_directory e ++ ["tasks.json"]

/-- The `command` property: `f"{self._name} {self.workspace_path}"` for a
local database, `raise OdevError("Database doesn't exist")` otherwise. -/
def command (e : VSCodeEditor) : Except OdevError String :=
  match e.database with
  | .lokal _ => .ok (vscodeName ++ " " ++ pathStr (workspace_path e))
  | .remote _ => .error (OdevError.mk "Database doesn\x27t exist")

/-- `odoo_path = database.odev.worktrees_path / database.worktree` (also the
resolved root, since paths in this model are already resolved). -/
def odoo_path (db : LocalDatabase) : FPath :=
  db.worktreesPath ++ [db.worktree]

/-- The four candidate addon root directories scanned by `_create_jsconfig`:
`root/addons`, `root/odoo/addons`, `root/enterprise` and the project path. -/
def addon_dirs (root proj : FPath) : List FPath :=
  [root ++ ["addons"], root ++ ["odoo", "addons"], root ++ ["enterprise"], proj]

/-- Alias synthesized for a discovered module directory: `f"@{module.name}/*"`. -/
def aliasStr (n : String) : String := "@" ++ n ++ "/*"

/-- Does the loop body record an entry for this candidate module path?
(`module.is_dir()` and `(module / "static" / "src").exists()`.) -/
def qualifies (fs : FS) (m : FPath) : Bool :=
  fs.isDir m ∧ fs.existsPath (m ++ ["static", "src"])

/-- The (alias, one-element path list) pairs recorded while iterating one
addon root directory `d`, in iteration order. -/
def entriesOf (fs : FS) (root d : FPath) : List (String × List String) :=
  ((fs.iterdir d).filter (qualifies fs)).map fun m =>
    (aliasStr (lastSeg m), [relpath (m ++ ["static", "src"]) root ++ "/*"])

/-- All pairs recorded by the scan loop over the four candidate roots, in
the order the loop records them (roots that do not exist are skipped). -/
def discoveredPairs (fs : FS) (root proj : FPath) : List (String × List String) :=
  (addon_dirs root proj).flatMap fun d =>
    if fs.existsPath d then entriesOf fs root d else []

/-- The hardcoded seed of `paths_map`, in source order. -/
def seedMap : List (String × List String) :=
  [("@odoo/owl", ["odoo/addons/web/static/src/@types/owl.d.ts"]),
   ("@odoo/hoot", ["odoo/addons/web/static/src/@types/hoot.d.ts"]),
   ("@odoo/hoot-dom", ["odoo/addons/web/static/src/@types/hoot.d.ts"])]

/-- One dictionary assignment `paths_map[k] = v`: replace the value in place
if the key is present, append the pair otherwise. -/
def upsert (l : List (String × List String)) (kv : String × List String) :
    List (String × List String) :=
  if kv.1 ∈ l.map Prod.fst then l.map (fun p => if p.1 = kv.1 then (p.1, kv.2) else p)
  else l ++ [kv]

/-- `paths_map` after the scan loop: seeded with the hardcoded aliases, then
one dictionary assignment per recorded pair. -/
def pathsMapOf (fs : FS) (root proj : FPath) : List (String × List String) :=
  (discoveredPairs fs root proj).foldl upsert seedMap

/-- Code-point lexicographic comparison of character lists: exactly how
Python compares the strings when sorting the map items. -/
def ltChars : List Char → List Char → Bool
  | _, [] => false
  | [], _ :: _ => true
  | a :: as, b :: bs =>
      if a.toNat < b.toNat then true
      else if b.toNat < a.toNat then false
      else ltChars as bs

/-- Strict code-point order on strings. -/
def strLT (a b : String) : Bool := ltChars a.data b.data

/-- Total code-point order on strings. -/
def strLE (a b : String) : Bool := ! strLT b a

/-- Ordering of map entries by key, used to model `sorted(paths_map.items())`
(keys are unique, so sorting compares keys only). -/
def keyLE (a b : String × List String) : Prop := strLE a.1 b.1 = true

/-- Insert one pair into a list sorted by key. -/
def insertPair (x : String × List String) :
    List (String × List String) → List (String × List String)
  | [] => [x]
  | y :: ys => if strLE x.1 y.1 then x :: y :: ys else y :: insertPair x ys

/-- Insertion sort by key: `dict(sorted(paths_map.items()))`. -/
def sortPairs : List (String × List String) → List (String × List String)
  | [] => []
  | x :: xs => insertPair x (sortPairs xs)

/-- `modules_mapping = dict(sorted(paths_map.items()))`. -/
def modulesMappingOf (fs : FS) (root proj : FPath) : List (String × List String) :=
  sortPairs (pathsMapOf fs root proj)

/-- JSON escaping of one character (quote and backslash; other characters of
the strings at hand need no escaping). -/
def jsonEscChar (c : Char) : String :=
  if c = '\\' then "\\\\" else if c = '"' then "\\\"" else String.singleton c

/-- A JSON string literal. -/
def jsonQuote (s : String) : String :=
  "\"" ++ String.join (s.data.map jsonEscChar) ++ "\""

/-- `json.dumps` of a list of strings nested one level deep in a dict, at
`indent=4`. -/
def dumpStrList (v : List String) : String :=
  if v = [] then "[]"
  else "[\n" ++ String.intercalate ",\n" (v.map fun s => "        " ++ jsonQuote s) ++ "\n    ]"

/-- `json.dumps(mapping, indent=4)` for a string-keyed dict of lists of
strings, in the dict's order. -/
def jsonDumps (m : List (String × List String)) : String :=
  if m = [] then "\x7b\x7d"
  else "\x7b\n" ++
    String.intercalate ",\n" (m.map fun kv => "    " ++ jsonQuote kv.1 ++ ": " ++ dumpStrList kv.2) ++
    "\n\x7d"

/-- A template-substitution list: keyword arguments in source order. -/
abbrev Subst := List (String × String)

/-- `repr` of a string in a log message (`{...!r}`). -/
def quoteRepr (s : String) : String := "\x27" ++ s ++ "\x27"

/-- The warning emitted when the database is not local. -/
def warningNoLocal (gitName : String) : String :=
  "No local database associated with repository " ++ quoteRepr gitName ++
    ", skipping VSCode configuration"

/-- Modelled from the spec: `string.join_bullet` lives in the host tool, not
in this repository; the summary log lists the created file paths as a
bullet list. -/
def join_bullet (items : List String) : String :=
  String.intercalate "\n" (items.map fun s => " - " ++ s)

/-- The observable effects of one `configure` call: warnings and info lines
logged, directories created (with parents, `exist_ok`), and files written.
Each write holds the full new file content (mode "w" truncates). -/
structure ConfigureResult where
  warnings : List String
  infos : List String
  dirsCreated : List FPath
  writes : List (FPath × String)
deriving DecidableEq

/-- `_create_workspace`, as the write it performs. -/
def create_workspace_write (render : String → Subst → String) (e : VSCodeEditor)
    (db : LocalDatabase) : FPath × String :=
  (workspace_path e,
   render "code-workspace.jinja"
     [("DB_NAME", db.name),
      ("ODOO_PATH", pathStr (odoo_path db)),
      ("VENV_PATH", db.venvPython),
      ("PYTHON_PATH", e.envPython),
      ("ODEV_EXE_PATH", pathStr (db.odevPath ++ ["main.py"]))])

/-- `_create_launch`, as the write it performs. -/
def create_launch_write (render : String → Subst → String) (e : VSCodeEditor) :
    FPath × String :=
  (launch_path e, render "launch.jinja" [])

/-- `_create_tasks`, as the write it performs. -/
def create_tasks_write (render : String → Subst → String) (e : VSCodeEditor)
    (db : LocalDatabase) : FPath × String :=
  (tasks_path e, render "tasks.jinja" [("DB_VERSION", db.version)])

/-- `_create_jsconfig`, as the write it performs: the serialized, key-sorted
addon path map and the project source path substituted into the jsconfig
template, written to `jsconfig.json` at the project root. -/
def create_jsconfig_write (render : String → Subst → String) (e : VSCodeEditor)
    (db : LocalDatabase) (fs : FS) : FPath × String :=
  (e.path ++ ["jsconfig.json"],
   render "jsconfig.jinja"
     [("ODOO_PATH", pathStr (odoo_path db)),
      ("JS_MODULES_PATHS", jsonDumps (modulesMappingOf fs (odoo_path db) e.path))])

/-- `configure`: on a non-local database, warn and stop; otherwise create
the workspace directory and render-and-write the four files, then log the
summary. -/
def configure (render : String → Subst → String) (e : VSCodeEditor) (fs : FS) :
    ConfigureResult :=
  match e.database with
  | .remote _ =>
      { warnings := [warningNoLocal e.gitName], infos := [],
        dirsCreated := [], writes := [] }
  | .lokal db =>
      { warnings := [],
        infos := ["Created VSCode config for project " ++ quoteRepr e.gitName ++ "\n" ++
          join_bullet
            ["Workspace: " ++ pathStr (workspace_path e),
             "Launch: " ++ pathStr (launch_path e),
             "Tasks: " ++ pathStr (tasks_path e)]],
        dirsCreated := [workspace_directory e],
        writes :=
          [create_workspace_write render e db,
           create_launch_write render e,
           create_tasks_write render e db,
           create_jsconfig_write render e db fs] }

/-- The nonempty prefixes of a path, shortest first. -/
def prefixesOf : FPath → List FPath
  | [] => []
  | s :: rest => [s] :: (prefixesOf rest).map (s :: ·)

/-- `Path.mkdir(parents=True, exist_ok=True)`: create the directory and any
missing ancestors. -/
def FS.mkdirAll (fs : FS) (p : FPath) : FS :=
  { fs with dirs := fs.dirs ++ (prefixesOf p).filter (fun q => ¬ q ∈ fs.dirs) }

/-- `open(path, "w")` followed by a full write: the file now exists; its
content is replaced wholesale (content itself is carried in the
`ConfigureResult`, not in the `FS`). -/
def FS.writeFile (fs : FS) (p : FPath) : FS :=
  { fs with files := fs.files ++ if p ∈ fs.files then [] else [p] }

/-- Apply the filesystem effects of a `configure` run to the filesystem. -/
def applyResult (fs : FS) (r : ConfigureResult) : FS :=
  (r.writes.map Prod.fst).foldl FS.writeFile (r.dirsCreated.foldl FS.mkdirAll fs)

/-! ### Association-list machinery -/

/-- Lookup by key in a pair list (first match). -/
def lookupKey {V : Type} (k : String) : List (String × V) → Option V
  | [] => none
  | kv :: t => if k = kv.1 then some kv.2 else lookupKey k t

/-- Left-biased choice of optional values. -/
def olast {V : Type} (a b : Option V) : Option V :=
  match a with
  | some v => some v
  | none => b

/-- The value of the last pair with key `k`, if any: the value a sequence of
dictionary assignments leaves behind for `k`. -/
def lastVal {V : Type} (k : String) (l : List (String × V)) : Option V :=
  lookupKey k l.reverse

@[simp] theorem olast_none {V : Type} (b : Option V) : olast none b = b := rfl

@[simp] theorem olast_some {V : Type} (v : V) (b : Option V) : olast (some v) b = some v := rfl

theorem olast_assoc {V : Type} (a b c : Option V) :
    olast (olast a b) c = olast a (olast b c) := by
  cases a <;> rfl

@[simp] theorem lookupKey_nil {V : Type} (k : String) : lookupKey (V := V) k [] = none := rfl

@[simp] theorem lookupKey_cons {V : Type} (k : String) (kv : String × V) (t : List (String × V)) :
    lookupKey k (kv :: t) = if k = kv.1 then some kv.2 else lookupKey k t := rfl

theorem lookupKey_append {V : Type} (k : String) (l l' : List (String × V)) :
    lookupKey k (l ++ l') = olast (lookupKey k l) (lookupKey k l') := by
  induction l with
  | nil => simp
  | cons kv t ih =>
      by_cases h : k = kv.1 <;> simp [h, ih]

@[simp] theorem lastVal_nil {V : Type} (k : String) : lastVal (V := V) k [] = none := rfl

theorem lastVal_append {V : Type} (k : String) (l l' : List (String × V)) :
    lastVal k (l ++ l') = olast (lastVal k l') (lastVal k l) := by
  simp [lastVal, List.reverse_append, lookupKey_append]

theorem lastVal_cons {V : Type} (k : String) (kv : String × V) (t : List (String × V)) :
    lastVal k (kv :: t) = olast (lastVal k t) (if k = kv.1 then some kv.2 else none) := by
  have h : kv :: t = [kv] ++ t := rfl
  rw [h, lastVal_append]
  by_cases hk : k = kv.1 <;> simp [lastVal, hk]

theorem lastVal_concat {V : Type} (k : String) (l : List (String × V)) (kv : String × V) :
    lastVal k (l ++ [kv]) = if k = kv.1 then some kv.2 else lastVal k l := by
  rw [lastVal_append]
  by_cases hk : k = kv.1 <;> simp [lastVal, hk, olast]

theorem lookupKey_none_iff {V : Type} (k : String) (l : List (String × V)) :
    lookupKey k l = none ↔ k ∉ l.map Prod.fst := by
  induction l with
  | nil => simp
  | cons p t ih =>
      by_cases hk : k = p.1 <;> simp [hk, ih]

theorem olast_none_right {V : Type} (a : Option V) : olast a none = a := by
  cases a <;> rfl

theorem lookupKey_map_setVal {V : Type} (k k0 : String) (v0 : V) (l : List (String × V)) :
    lookupKey k (l.map fun p => if p.1 = k0 then (p.1, v0) else p) =
      Option.map (fun v => if k = k0 then v0 else v) (lookupKey k l) := by
  induction l with
  | nil => rfl
  | cons p t ih =>
      by_cases hp : p.1 = k0
      · by_cases hk : k = p.1
        · simp [hp, hk]
        · have hk0 : ¬ k = k0 := fun h => hk (h.trans hp.symm)
          simp [hp, hk, hk0, ih]
      · by_cases hk : k = p.1
        · have hk0 : ¬ k = k0 := fun h => hp (hk.symm.trans h)
          simp [hp, hk, hk0]
        · simp [hp, hk, ih]

theorem lookupKey_upsert (k : String) (l : List (String × List String))
    (kv : String × List String) :
    lookupKey k (upsert l kv) = if k = kv.1 then some kv.2 else lookupKey k l := by
  unfold upsert
  by_cases hmem : kv.1 ∈ l.map Prod.fst
  · simp only [hmem, if_true, lookupKey_map_setVal]
    by_cases hk : k = kv.1
    · rcases ho : lookupKey kv.1 l with _ | v
      · exact absurd hmem ((lookupKey_none_iff kv.1 l).mp ho)
      · simp [hk, ho]
    · simp only [hk, if_false]
      cases lookupKey k l <;> simp [hk]
  · simp only [hmem, if_false, lookupKey_append]
    by_cases hk : k = kv.1
    · have h0 : lookupKey kv.1 l = none := (lookupKey_none_iff kv.1 l).mpr hmem
      simp [hk, h0]
    · simp only [lookupKey_cons, hk, if_false, lookupKey_nil, olast_none_right]

theorem lookupKey_foldl_upsert (k : String) (l : List (String × List String)) :
    ∀ acc, lookupKey k (l.foldl upsert acc) = olast (lastVal k l) (lookupKey k acc) := by
  induction l with
  | nil => intro acc; simp
  | cons p t ih =>
      intro acc
      have h1 : (p :: t).foldl upsert acc = t.foldl upsert (upsert acc p) := rfl
      rw [h1, ih, lookupKey_upsert, lastVal_cons, olast_assoc]
      by_cases hk : k = p.1 <;> simp [hk, olast]

theorem keys_upsert (l : List (String × List String)) (kv : String × List String) :
    (upsert l kv).map Prod.fst =
      if kv.1 ∈ l.map Prod.fst then l.map Prod.fst else l.map Prod.fst ++ [kv.1] := by
  unfold upsert
  by_cases hmem : kv.1 ∈ l.map Prod.fst
  · simp only [hmem, if_true, List.map_map]
    apply List.map_congr_left
    intro p _
    by_cases hp : p.1 = kv.1 <;> simp [hp]
  · simp [hmem]

theorem nodupKeys_upsert (l : List (String × List String)) (kv : String × List String)
    (h : (l.map Prod.fst).Nodup) : ((upsert l kv).map Prod.fst).Nodup := by
  rw [keys_upsert]
  by_cases hmem : kv.1 ∈ l.map Prod.fst
  · simpa [hmem]
  · simp only [hmem, if_false]
    rw [List.nodup_append]
    refine ⟨h, List.nodup_singleton kv.1, ?_⟩
    intro a ha hb
    rw [List.mem_singleton] at hb
    exact hmem (hb ▸ ha)

theorem nodupKeys_foldl_upsert (l : List (String × List String)) :
    ∀ acc, (acc.map Prod.fst).Nodup → ((l.foldl upsert acc).map Prod.fst).Nodup := by
  induction l with
  | nil => intro acc h; exact h
  | cons p t ih => intro acc h; exact ih (upsert acc p) (nodupKeys_upsert acc p h)

theorem lookupKey_eq_some_of_mem {V : Type} {l : List (String × V)} {k : String} {v : V}
    (hnd : (l.map Prod.fst).Nodup) (hmem : (k, v) ∈ l) : lookupKey k l = some v := by
  induction l with
  | nil => simp at hmem
  | cons p t ih =>
      have hnd' := hnd
      rw [List.map_cons, List.nodup_cons] at hnd'
      rcases List.mem_cons.mp hmem with h | h
      · simp [← h]
      · have hk : ¬ k = p.1 := by
          intro hkp
          have : p.1 ∈ t.map Prod.fst := hkp ▸ List.mem_map_of_mem Prod.fst h
          exact hnd'.1 this
        simp only [lookupKey_cons, hk, if_false]
        exact ih hnd'.2 h

theorem mem_of_lookupKey_eq_some {V : Type} {l : List (String × V)} {k : String} {v : V}
    (h : lookupKey k l = some v) : (k, v) ∈ l := by
  induction l with
  | nil => simp at h
  | cons p t ih =>
      by_cases hk : k = p.1
      · simp only [lookupKey_cons, hk, if_true, Option.some_inj] at h
        exact List.mem_cons.mpr (Or.inl (by rw [hk, ← h]))
      · simp only [lookupKey_cons, hk, if_false] at h
        exact List.mem_cons.mpr (Or.inr (ih h))

theorem lookupKey_eq_some_iff {V : Type} {l : List (String × V)} {k : String} {v : V}
    (hnd : (l.map Prod.fst).Nodup) : lookupKey k l = some v ↔ (k, v) ∈ l :=
  ⟨mem_of_lookupKey_eq_some, lookupKey_eq_some_of_mem hnd⟩

theorem lookupKey_eq_of_perm {V : Type} {l₁ l₂ : List (String × V)} (hp : l₁.Perm l₂)
    (hnd : (l₁.map Prod.fst).Nodup) (k : String) : lookupKey k l₁ = lookupKey k l₂ := by
  induction hp with
  | nil => rfl
  | cons p hpt ih =>
      have hnd' := hnd
      rw [List.map_cons, List.nodup_cons] at hnd'
      by_cases hk : k = p.1 <;> simp [hk, ih hnd'.2]
  | swap p q t =>
      have hnd' := hnd
      rw [List.map_cons, List.map_cons, List.nodup_cons] at hnd'
      have hqp : ¬ q.1 = p.1 := by
        intro h
        exact hnd'.1 (by simp [h])
      by_cases h1 : k = q.1
      · have h2 : ¬ k = p.1 := fun h => hqp (h1.symm.trans h)
        simp [h1, h2, hqp]
      · have hpq : ¬ p.1 = q.1 := fun h => hqp h.symm
        by_cases h2 : k = p.1 <;> simp [h1, h2, hpq]
  | trans hp1 _ ih1 ih2 =>
      have hnd2 := (hp1.map Prod.fst).nodup_iff.mp hnd
      exact (ih1 hnd).trans (ih2 hnd2)

theorem lastVal_eq_of_perm {V : Type} {l₁ l₂ : List (String × V)} (hp : l₁.Perm l₂)
    (hnd : (l₁.map Prod.fst).Nodup) (k : String) : lastVal k l₁ = lastVal k l₂ := by
  have hrev : l₁.reverse.Perm l₂.reverse := (l₁.reverse_perm.trans hp).trans l₂.reverse_perm.symm
  have hnd1 : (l₁.reverse.map Prod.fst).Nodup := by
    have := (l₁.reverse_perm.map Prod.fst).nodup_iff.mpr hnd
    exact this
  exact lookupKey_eq_of_perm hrev hnd1 k

theorem lastVal_concat_mem {V : Type} {l : List (String × V)} {k : String} {v : V}
    (hnd : (l.map Prod.fst).Nodup) (hmem : (k, v) ∈ l) :
    ∀ k', lastVal k' (l ++ [(k, v)]) = lastVal k' l := by
  intro k'
  rw [lastVal_concat]
  by_cases hk : k' = k
  · subst hk
    have hr : (l.reverse.map Prod.fst).Nodup := by
      have := (l.reverse_perm.map Prod.fst).nodup_iff.mpr hnd
      exact this
    simp only [if_true]
    exact (lookupKey_eq_some_of_mem hr (List.mem_reverse.mpr hmem)).symm
  · simp [hk]

/-! ### The code-point order -/

theorem ltChars_asymm : ∀ x y, ltChars x y = true → ltChars y x = false := by
  intro x
  induction x with
  | nil =>
      intro y h
      cases y with
      | nil => simp [ltChars] at h
      | cons b bs => simp [ltChars]
  | cons a as ih =>
      intro y h
      cases y with
      | nil => simp [ltChars] at h
      | cons b bs =>
          simp only [ltChars] at h ⊢
          by_cases h1 : a.toNat < b.toNat
          · have h2 : ¬ b.toNat < a.toNat := Nat.lt_asymm h1
            simp [h1, h2]
          · by_cases h2 : b.toNat < a.toNat
            · simp [h1, h2] at h
            · simp only [h1, h2, if_false] at h ⊢
              exact ih bs h

theorem ltChars_trans : ∀ x y z, ltChars x y = true → ltChars y z = true →
    ltChars x z = true := by
  intro x
  induction x with
  | nil =>
      intro y z hxy hyz
      cases z with
      | nil => cases y <;> simp [ltChars] at hxy hyz
      | cons c cs => simp [ltChars]
  | cons a as ih =>
      intro y z hxy hyz
      cases y with
      | nil => simp [ltChars] at hxy
      | cons b bs =>
          cases z with
          | nil => simp [ltChars] at hyz
          | cons c cs =>
              simp only [ltChars] at hxy hyz ⊢
              by_cases hab : a.toNat < b.toNat
              · by_cases hbc : b.toNat < c.toNat
                · have hac : a.toNat < c.toNat := Nat.lt_trans hab hbc
                  simp [hac]
                · by_cases hcb : c.toNat < b.toNat
                  · simp [hbc, hcb] at hyz
                  · have hac : a.toNat < c.toNat := by omega
                    simp [hac]
              · by_cases hba : b.toNat < a.toNat
                · simp [hab, hba] at hxy
                · simp only [hab, hba, if_false] at hxy
                  by_cases hbc : b.toNat < c.toNat
                  · have hac : a.toNat < c.toNat := by omega
                    simp [hac]
                  · by_cases hcb : c.toNat < b.toNat
                    · simp [hbc, hcb] at hyz
                    · simp only [hbc, hcb, if_false] at hyz
                      have hac : ¬ a.toNat < c.toNat := by omega
                      have hca : ¬ c.toNat < a.toNat := by omega
                      simp only [hac, hca, if_false]
                      exact ih bs cs hxy hyz

theorem ltChars_eq_of_not : ∀ x y, ltChars x y = false → ltChars y x = false → x = y := by
  intro x
  induction x with
  | nil =>
      intro y h1 _
      cases y with
      | nil => rfl
      | cons b bs => simp [ltChars] at h1
  | cons a as ih =>
      intro y h1 h2
      cases y with
      | nil => simp [ltChars] at h2
      | cons b bs =>
          simp only [ltChars] at h1 h2
          by_cases hab : a.toNat < b.toNat
          · simp [hab] at h1
          · by_cases hba : b.toNat < a.toNat
            · simp [hba] at h2
            · have hval : a.toNat = b.toNat := by omega
              have hchar : a = b := Char.ext (UInt32.toNat.inj hval)
              simp only [hab, hba, if_false] at h1 h2
              rw [hchar, ih bs h1 h2]

theorem strLE_iff (a b : String) : strLE a b = true ↔ ltChars b.data a.data = false := by
  simp [strLE, strLT]

theorem strLE_resolve {a b : String} (h : ¬ strLE a b = true) : strLE b a = true := by
  rw [strLE_iff] at h ⊢
  cases hx : ltChars b.data a.data
  · exact absurd hx h
  · exact ltChars_asymm _ _ hx

theorem strLE_trans {a b c : String} (h1 : strLE a b = true) (h2 : strLE b c = true) :
    strLE a c = true := by
  rw [strLE_iff] at h1 h2 ⊢
  cases hc : ltChars c.data a.data
  · rfl
  · by_cases hab : ltChars a.data b.data = true
    · have hcb := ltChars_trans _ _ _ hc hab
      rw [h2] at hcb
      exact absurd hcb Bool.false_ne_true
    · have hab' : ltChars a.data b.data = false := by
        cases h : ltChars a.data b.data
        · rfl
        · exact absurd h hab
      have heq : a.data = b.data := ltChars_eq_of_not _ _ hab' h1
      rw [← heq] at h2
      rw [h2] at hc
      exact absurd hc Bool.false_ne_true

theorem strLT_of_strLE_ne {a b : String} (h : strLE a b = true) (hne : a ≠ b) :
    strLT a b = true := by
  rw [strLE_iff] at h
  cases hx : strLT a b
  · have hx' : ltChars a.data b.data = false := hx
    exact absurd (String.ext (ltChars_eq_of_not _ _ hx' h)) hne
  · rfl

/-! ### Sorting -/

theorem perm_insertPair (x : String × List String) (l : List (String × List String)) :
    (insertPair x l).Perm (x :: l) := by
  induction l with
  | nil => rfl
  | cons y ys ih =>
      unfold insertPair
      by_cases h : strLE x.1 y.1 = true
      · rw [if_pos h]
      · rw [if_neg h]
        exact (ih.cons y).trans (List.Perm.swap x y ys)

theorem perm_sortPairs (l : List (String × List String)) : (sortPairs l).Perm l := by
  induction l with
  | nil => rfl
  | cons x xs ih => exact (perm_insertPair x (sortPairs xs)).trans (ih.cons x)

theorem sorted_insertPair (x : String × List String) (l : List (String × List String))
    (h : l.Pairwise keyLE) : (insertPair x l).Pairwise keyLE := by
  induction l with
  | nil => simp [insertPair]
  | cons y ys ih =>
      unfold insertPair
      by_cases hxy : strLE x.1 y.1 = true
      · rw [if_pos hxy]
        refine List.Pairwise.cons ?_ h
        intro z hz
        rcases List.mem_cons.mp hz with hz | hz
        · exact hz ▸ hxy
        · exact strLE_trans hxy ((List.pairwise_cons.mp h).1 z hz)
      · rw [if_neg hxy]
        rcases List.pairwise_cons.mp h with ⟨hy, hys⟩
        refine List.Pairwise.cons ?_ (ih hys)
        intro z hz
        have hz2 := (perm_insertPair x ys).mem_iff.mp hz
        rcases List.mem_cons.mp hz2 with hz2 | hz2
        · exact hz2 ▸ strLE_resolve hxy
        · exact hy z hz2
      
theorem sorted_sortPairs (l : List (String × List String)) : (sortPairs l).Pairwise keyLE := by
  induction l with
  | nil => simp [sortPairs]
  | cons x xs ih => exact sorted_insertPair x (sortPairs xs) ih

/-- Strict key order, for the uniqueness of sorted association lists. -/
def keyLT (a b : String × List String) : Prop := strLT a.1 b.1 = true

instance : IsAntisymm (String × List String) keyLT :=
  ⟨fun a b h1 h2 => by
    have h1' : ltChars a.1.data b.1.data = true := h1
    have h2' : ltChars b.1.data a.1.data = true := h2
    have hfalse := ltChars_asymm _ _ h1'
    rw [h2'] at hfalse
    exact absurd hfalse.symm Bool.false_ne_true⟩

theorem sorted_key_eq {l₁ l₂ : List (String × List String)}
    (hnd : (l₁.map Prod.fst).Nodup) (hp : l₁.Perm l₂)
    (hs₁ : l₁.Pairwise keyLE) (hs₂ : l₂.Pairwise keyLE) : l₁ = l₂ := by
  have hnd₂ : (l₂.map Prod.fst).Nodup := (hp.map Prod.fst).nodup_iff.mp hnd
  have hlt : ∀ {l : List (String × List String)}, (l.map Prod.fst).Nodup →
      l.Pairwise keyLE → l.Pairwise keyLT := by
    intro l hn hs
    have hne : l.Pairwise (fun a b => a.1 ≠ b.1) := (List.pairwise_map.mp hn)
    exact (hs.and hne).imp fun h => strLT_of_strLE_ne h.1 h.2
  exact List.eq_of_perm_of_sorted hp (hlt hnd hs₁) (hlt hnd₂ hs₂)

theorem perm_of_lookupKey_eq {l₁ l₂ : List (String × List String)}
    (hnd₁ : (l₁.map Prod.fst).Nodup) (hnd₂ : (l₂.map Prod.fst).Nodup)
    (h : ∀ k, lookupKey k l₁ = lookupKey k l₂) : l₁.Perm l₂ := by
  rw [List.perm_ext_iff_of_nodup (hnd₁.of_map Prod.fst) (hnd₂.of_map Prod.fst)]
  rintro ⟨k, v⟩
  rw [← lookupKey_eq_some_iff hnd₁, ← lookupKey_eq_some_iff hnd₂, h k]

/-- Seed keys are never produced by the scan, and a scan alias determines the
module name: the alias string always ends in the character `*`. -/
theorem aliasStr_data (n : String) : (aliasStr n).data = '@' :: n.data ++ ['/', '*'] := by
  simp [aliasStr]

theorem lookupKey_seedMap_alias (n : String) : lookupKey (aliasStr n) seedMap = none := by
  have hlast : ((aliasStr n).data).getLast? = some '*' := by
    rw [aliasStr_data]
    have : '@' :: n.data ++ ['/', '*'] = ('@' :: n.data ++ ['/']) ++ ['*'] := by simp
    rw [this, List.getLast?_concat]
  have hne : ∀ s : String, s.data.getLast? ≠ some '*' → aliasStr n ≠ s := by
    intro s hs heq
    exact hs (heq ▸ hlast)
  have h1 : aliasStr n ≠ "@odoo/owl" := hne _ (by decide)
  have h2 : aliasStr n ≠ "@odoo/hoot" := hne _ (by decide)
  have h3 : aliasStr n ≠ "@odoo/hoot-dom" := hne _ (by decide)
  simp [seedMap, lookupKey, h1, h2, h3]

theorem nodupKeys_seedMap : (seedMap.map Prod.fst).Nodup := by decide

/-- The addon path map always has no duplicate keys. -/
theorem nodupKeys_pathsMapOf (fs : FS) (root proj : FPath) :
    ((pathsMapOf fs root proj).map Prod.fst).Nodup :=
  nodupKeys_foldl_upsert _ seedMap nodupKeys_seedMap

/-- Lookup in the addon path map: the hardcoded seed, overridden by the last
scan assignment to the key, if any. -/
theorem lookupKey_pathsMapOf (fs : FS) (root proj : FPath) (k : String) :
    lookupKey k (pathsMapOf fs root proj) =
      olast (lastVal k (discoveredPairs fs root proj)) (lookupKey k seedMap) :=
  lookupKey_foldl_upsert k _ seedMap

/-- The serialized mapping is a function of the per-key last scan value
alone: runs whose scans agree key-by-key on the last value produce the same
sorted mapping. -/
theorem modulesMapping_eq_of_lastVal_eq {fs₁ fs₂ : FS} {root₁ root₂ proj₁ proj₂ : FPath}
    (h : ∀ k, lastVal k (discoveredPairs fs₁ root₁ proj₁) =
      lastVal k (discoveredPairs fs₂ root₂ proj₂)) :
    modulesMappingOf fs₁ root₁ proj₁ = modulesMappingOf fs₂ root₂ proj₂ := by
  have hnd₁ := nodupKeys_pathsMapOf fs₁ root₁ proj₁
  have hnd₂ := nodupKeys_pathsMapOf fs₂ root₂ proj₂
  have hlook : ∀ k, lookupKey k (pathsMapOf fs₁ root₁ proj₁) =
      lookupKey k (pathsMapOf fs₂ root₂ proj₂) := by
    intro k
    rw [lookupKey_pathsMapOf, lookupKey_pathsMapOf, h k]
  have hperm : (pathsMapOf fs₁ root₁ proj₁).Perm (pathsMapOf fs₂ root₂ proj₂) :=
    perm_of_lookupKey_eq hnd₁ hnd₂ hlook
  have hsp : (modulesMappingOf fs₁ root₁ proj₁).Perm (modulesMappingOf fs₂ root₂ proj₂) :=
    ((perm_sortPairs _).trans hperm).trans (perm_sortPairs _).symm
  have hndp : ((modulesMappingOf fs₁ root₁ proj₁).map Prod.fst).Nodup :=
    ((perm_sortPairs (pathsMapOf fs₁ root₁ proj₁)).map Prod.fst).nodup_iff.mpr hnd₁
  exact sorted_key_eq hndp hsp (sorted_sortPairs _) (sorted_sortPairs _)

theorem aliasStr_inj {a b : String} (h : aliasStr a = aliasStr b) : a = b := by
  have hd : (aliasStr a).data = (aliasStr b).data := h ▸ rfl
  rw [aliasStr_data, aliasStr_data] at hd
  have h1 : a.data ++ ['/', '*'] = b.data ++ ['/', '*'] := List.tail_eq_of_cons_eq hd
  exact String.ext (List.append_cancel_right h1)

theorem lastVal_eq_lookupKey {V : Type} (l : List (String × V))
    (hnd : (l.map Prod.fst).Nodup) (k : String) : lastVal k l = lookupKey k l :=
  lookupKey_eq_of_perm l.reverse_perm
    ((l.reverse_perm.map Prod.fst).nodup_iff.mpr hnd) k

theorem valuesSingleton_upsert {l : List (String × List String)} {kv : String × List String}
    (hl : ∀ p ∈ l, p.2.length = 1) (hkv : kv.2.length = 1) :
    ∀ p ∈ upsert l kv, p.2.length = 1 := by
  unfold upsert
  by_cases hmem : kv.1 ∈ l.map Prod.fst
  · simp only [hmem, if_true]
    intro p hp
    rcases List.mem_map.mp hp with ⟨q, hq, hpq⟩
    by_cases h : q.1 = kv.1
    · simp only [h, if_true] at hpq
      rw [← hpq]
      exact hkv
    · simp only [h, if_false] at hpq
      exact hpq ▸ hl q hq
  · simp only [hmem, if_false]
    intro p hp
    rcases List.mem_append.mp hp with h | h
    · exact hl p h
    · rw [List.mem_singleton] at h
      exact h ▸ hkv

theorem valuesSingleton_foldl {l : List (String × List String)}
    (hl : ∀ p ∈ l, p.2.length = 1) :
    ∀ acc, (∀ p ∈ acc, p.2.length = 1) → ∀ p ∈ l.foldl upsert acc, p.2.length = 1 := by
  induction l with
  | nil => intro acc hacc; exact hacc
  | cons q t ih =>
      intro acc hacc
      exact ih (fun p hp => hl p (List.mem_cons_of_mem q hp))
        (upsert acc q) (valuesSingleton_upsert hacc (hl q (List.mem_cons_self q t)))

theorem valuesSingleton_discovered (fs : FS) (root proj : FPath) :
    ∀ p ∈ discoveredPairs fs root proj, p.2.length = 1 := by
  intro p hp
  rcases List.mem_flatMap.mp hp with ⟨d, _, hd2⟩
  by_cases h : fs.existsPath d
  · simp only [h, if_true] at hd2
    rcases List.mem_map.mp hd2 with ⟨m, _, hm2⟩
    rw [← hm2]
    rfl
  · simp [h] at hd2

theorem valuesSingleton_pathsMapOf (fs : FS) (root proj : FPath) :
    ∀ p ∈ pathsMapOf fs root proj, p.2.length = 1 :=
  valuesSingleton_foldl (valuesSingleton_discovered fs root proj) seedMap (by decide)

/-! ### Claim theorems: configure control flow and the simple accessors -/

/-- C1: on a non-local database, `configure` returns normally having emitted
exactly one warning (which names the project), created no directory and
written no file; this is its entire effect. -/
theorem configure_nonlocal_noop (render : String → Subst → String) (e : VSCodeEditor)
    (fs : FS) (n : String) (h : e.database = .remote n) :
    configure render e fs =
      { warnings := [warningNoLocal e.gitName], infos := [],
        dirsCreated := [], writes := [] } := by
  unfold configure
  rw [h]

theorem configure_nonlocal_noop_witness :
    (VSCodeEditor.mk ["p"] (.remote "db") "repo" "py").database = .remote "db" ∧
      configure (fun _ _ => "") (VSCodeEditor.mk ["p"] (.remote "db") "repo" "py") (FS.mk [] []) =
        { warnings := [warningNoLocal "repo"], infos := [],
          dirsCreated := [], writes := [] } :=
  ⟨rfl, configure_nonlocal_noop (fun _ _ => "") _ (FS.mk [] []) "db" rfl⟩

/-- C2: for a local database, the workspace step renders the workspace
template with the database display name, the worktree source path, the
virtual-environment interpreter path, the tool's interpreter path and the
tool's executable path, and writes the result to
`<project>/.vscode/<database-name>.code-workspace` (the first write of the
run). -/
theorem configure_workspace_write (render : String → Subst → String) (e : VSCodeEditor)
    (fs : FS) (db : LocalDatabase) (h : e.database = .lokal db) :
    (configure render e fs).writes[0]? =
      some (e.path ++ [".vscode", db.name ++ ".code-workspace"],
        render "code-workspace.jinja"
          [("DB_NAME", db.name),
           ("ODOO_PATH", pathStr (db.worktreesPath ++ [db.worktree])),
           ("VENV_PATH", db.venvPython),
           ("PYTHON_PATH", e.envPython),
           ("ODEV_EXE_PATH", pathStr (db.odevPath ++ ["main.py"]))]) := by
  unfold configure
  rw [h]
  simp [create_workspace_write, workspace_path, workspace_directory, Database.dbName, odoo_path, h]

theorem configure_workspace_write_witness :
    (VSCodeEditor.mk ["p"] (.lokal (LocalDatabase.mk "db" "17.0" "wt" "vp" ["od"] ["wts"]))
        "repo" "py").database = .lokal (LocalDatabase.mk "db" "17.0" "wt" "vp" ["od"] ["wts"]) ∧
      (configure (fun t s => String.intercalate ";" (t :: s.map Prod.snd))
          (VSCodeEditor.mk ["p"] (.lokal (LocalDatabase.mk "db" "17.0" "wt" "vp" ["od"] ["wts"]))
            "repo" "py") (FS.mk [["p"]] [])).writes[0]? =
        some (["p", ".vscode", "db.code-workspace"],
          "code-workspace.jinja;db;/wts/wt;vp;py;/od/main.py") :=
  ⟨rfl, by
    rw [configure_workspace_write (fun t s => String.intercalate ";" (t :: s.map Prod.snd))
      _ (FS.mk [["p"]] []) (LocalDatabase.mk "db" "17.0" "wt" "vp" ["od"] ["wts"]) rfl]
    rfl⟩

/-- C3: the `command` accessor raises the distinct domain error for a
non-local database, and returns the invocation string (without raising) for
a local one. -/
theorem command_local_or_error (e : VSCodeEditor) :
    (∀ n, e.database = .remote n →
        command e = .error (OdevError.mk "Database doesn\x27t exist")) ∧
      (∀ db, e.database = .lokal db →
        command e = .ok (vscodeName ++ " " ++ pathStr (workspace_path e))) := by
  constructor
  · intro n h
    unfold command
    rw [h]
  · intro db h
    unfold command
    rw [h]

theorem command_local_or_error_witness :
    ((VSCodeEditor.mk ["p"] (.remote "r") "g" "py").database = .remote "r" ∧
        command (VSCodeEditor.mk ["p"] (.remote "r") "g" "py") =
          .error (OdevError.mk "Database doesn\x27t exist")) ∧
      ((VSCodeEditor.mk ["p"] (.lokal (LocalDatabase.mk "db" "v" "wt" "vp" [] [])) "g"
            "py").database = .lokal (LocalDatabase.mk "db" "v" "wt" "vp" [] []) ∧
        command (VSCodeEditor.mk ["p"] (.lokal (LocalDatabase.mk "db" "v" "wt" "vp" [] [])) "g"
            "py") = .ok "code /p/.vscode/db.code-workspace") :=
  ⟨⟨rfl, (command_local_or_error (VSCodeEditor.mk ["p"] (.remote "r") "g" "py")).1 "r" rfl⟩,
   ⟨rfl, by
      rw [(command_local_or_error (VSCodeEditor.mk ["p"]
        (.lokal (LocalDatabase.mk "db" "v" "wt" "vp" [] [])) "g" "py")).2
        (LocalDatabase.mk "db" "v" "wt" "vp" [] []) rfl]
      rfl⟩⟩

/-- C9: for a local database the command is exactly the editor name `code`,
a space, and the workspace file path `<project>/.vscode/<db>.code-workspace`;
it is determined by the project path and the database name alone. -/
theorem command_local_exact (e : VSCodeEditor) (db : LocalDatabase)
    (h : e.database = .lokal db) :
    command e = .ok ("code " ++ pathStr (e.path ++ [".vscode", db.name ++ ".code-workspace"])) ∧
      (∀ (e₂ : VSCodeEditor) (db₂ : LocalDatabase), e₂.database = .lokal db₂ →
        e₂.path = e.path → db₂.name = db.name → command e₂ = command e) := by
  constructor
  · unfold command
    rw [h]
    simp [vscodeName, workspace_path, workspace_directory, Database.dbName, h]
  · intro e₂ db₂ h₂ hpath hname
    unfold command
    rw [h, h₂]
    simp [workspace_path, workspace_directory, Database.dbName, h, h₂, hpath, hname]

theorem command_local_exact_witness :
    (VSCodeEditor.mk ["p"] (.lokal (LocalDatabase.mk "db" "v" "wt" "vp" [] [])) "g"
        "py").database = .lokal (LocalDatabase.mk "db" "v" "wt" "vp" [] []) ∧
      command (VSCodeEditor.mk ["p"] (.lokal (LocalDatabase.mk "db" "v" "wt" "vp" [] [])) "g"
        "py") = .ok ("code " ++ pathStr (["p"] ++ [".vscode", "db" ++ ".code-workspace"])) :=
  ⟨rfl, (command_local_exact (VSCodeEditor.mk ["p"]
      (.lokal (LocalDatabase.mk "db" "v" "wt" "vp" [] [])) "g" "py")
      (LocalDatabase.mk "db" "v" "wt" "vp" [] []) rfl).1⟩

/-- C5: the addon path map always has unique keys; it behaves as the
sequence of dictionary assignments, hardcoded aliases first and then every
scan entry in scan order, where a later assignment to the same alias
overwrites the earlier one — each alias maps to the last value written to
it. -/
theorem pathsMap_unique_keys_last_writer (fs : FS) (root proj : FPath) :
    ((pathsMapOf fs root proj).map Prod.fst).Nodup ∧
      ∀ k, lookupKey k (pathsMapOf fs root proj) =
        lastVal k (seedMap ++ discoveredPairs fs root proj) := by
  refine ⟨nodupKeys_pathsMapOf fs root proj, fun k => ?_⟩
  rw [lookupKey_pathsMapOf, lastVal_append, lastVal_eq_lookupKey seedMap nodupKeys_seedMap]

/-- C4 (amended): the key `@<name>/*` of the addon path map carries exactly
the value of the last scan entry recorded for it — `none` when no scanned
subdirectory named `name` qualifies — and a scan entry for `@<name>/*` with
value `v` is recorded precisely for an existing candidate addon root with an
immediate subdirectory that is a directory named `name` containing
`static/src`, with `v` that subdirectory's `static/src` path relative to the
resolved worktree root (plus `/*`).  A qualifying subdirectory whose name is
shared with a later-scanned qualifying subdirectory thus has its entry
overwritten, which is the sole correction to the claim. -/
theorem addon_map_entry_iff (fs : FS) (root proj : FPath) (n : String) :
    lookupKey (aliasStr n) (pathsMapOf fs root proj) =
      lastVal (aliasStr n) (discoveredPairs fs root proj) ∧
      ∀ v, (aliasStr n, v) ∈ discoveredPairs fs root proj ↔
        ∃ d ∈ addon_dirs root proj, fs.existsPath d ∧ ∃ m ∈ fs.iterdir d,
          qualifies fs m ∧ lastSeg m = n ∧
            v = [relpath (m ++ ["static", "src"]) root ++ "/*"] := by
  constructor
  · rw [lookupKey_pathsMapOf, lookupKey_seedMap_alias, olast_none_right]
  · intro v
    constructor
    · intro hmem
      rcases List.mem_flatMap.mp hmem with ⟨d, hd, hd2⟩
      by_cases hex : fs.existsPath d
      · simp only [hex, if_true, entriesOf] at hd2
        rcases List.mem_map.mp hd2 with ⟨m, hm, hm2⟩
        rcases List.mem_filter.mp hm with ⟨hmd, hq⟩
        have hn : lastSeg m = n := aliasStr_inj (congrArg Prod.fst hm2)
        refine ⟨d, hd, hex, m, hmd, hq, hn, ?_⟩
        exact (congrArg Prod.snd hm2).symm
      · simp [hex] at hd2
    · rintro ⟨d, hd, hex, m, hmd, hq, hn, hv⟩
      refine List.mem_flatMap.mpr ⟨d, hd, ?_⟩
      simp only [hex, if_true, entriesOf]
      refine List.mem_map.mpr ⟨m, List.mem_filter.mpr ⟨hmd, hq⟩, ?_⟩
      rw [hn, hv]

/-- C4, counterexample to the claim as stated: with the module `m` present
both under `<root>/addons` and under the project directory (scanned last),
the subdirectory `<root>/addons/m` is a directory containing `static/src`,
yet the map does not carry the entry `@m/* → [addons/m/static/src/*]`: the
later scan of the project directory overwrote it. -/
theorem addon_map_entry_iff_cex :
    (FS.mk [["wt"], ["wt", "addons"], ["wt", "addons", "m"], ["wt", "addons", "m", "static"],
        ["wt", "addons", "m", "static", "src"], ["pr"], ["pr", "m"], ["pr", "m", "static"],
        ["pr", "m", "static", "src"]] []).existsPath ["wt", "addons"] = true ∧
      ["wt", "addons", "m"] ∈ (FS.mk [["wt"], ["wt", "addons"], ["wt", "addons", "m"],
        ["wt", "addons", "m", "static"], ["wt", "addons", "m", "static", "src"], ["pr"],
        ["pr", "m"], ["pr", "m", "static"], ["pr", "m", "static", "src"]] []).iterdir
        ["wt", "addons"] ∧
      qualifies (FS.mk [["wt"], ["wt", "addons"], ["wt", "addons", "m"],
        ["wt", "addons", "m", "static"], ["wt", "addons", "m", "static", "src"], ["pr"],
        ["pr", "m"], ["pr", "m", "static"], ["pr", "m", "static", "src"]] [])
        ["wt", "addons", "m"] = true ∧
      relpath ["wt", "addons", "m", "static", "src"] ["wt"] = "addons/m/static/src" ∧
      lookupKey (aliasStr "m") (pathsMapOf (FS.mk [["wt"], ["wt", "addons"],
        ["wt", "addons", "m"], ["wt", "addons", "m", "static"],
        ["wt", "addons", "m", "static", "src"], ["pr"], ["pr", "m"], ["pr", "m", "static"],
        ["pr", "m", "static", "src"]] []) ["wt"] ["pr"]) ≠
        some ["addons/m/static/src/*"] := by
  refine ⟨by decide, by decide, by decide, by decide, ?_⟩
  decide

/-- C6: the intellisense step serializes the addon path map pretty-printed
with keys in sorted order and every value a one-element list of a relative
path, substitutes it together with the project source path into the
jsconfig template, and writes the result to `jsconfig.json` directly under
the project root — a path not under the `.vscode` configuration
directory. -/
theorem configure_jsconfig_write (render : String → Subst → String) (e : VSCodeEditor)
    (fs : FS) (db : LocalDatabase) (h : e.database = .lokal db) :
    (configure render e fs).writes[3]? =
      some (e.path ++ ["jsconfig.json"],
        render "jsconfig.jinja"
          [("ODOO_PATH", pathStr (odoo_path db)),
           ("JS_MODULES_PATHS", jsonDumps (modulesMappingOf fs (odoo_path db) e.path))]) ∧
      (modulesMappingOf fs (odoo_path db) e.path).Pairwise keyLE ∧
      (∀ kv ∈ modulesMappingOf fs (odoo_path db) e.path, kv.2.length = 1) ∧
      ¬ workspace_directory e <+: e.path ++ ["jsconfig.json"] := by
  refine ⟨?_, sorted_sortPairs _, ?_, ?_⟩
  · unfold configure
    rw [h]
    rfl
  · intro kv hkv
    exact valuesSingleton_pathsMapOf fs (odoo_path db) e.path kv
      ((perm_sortPairs _).subset hkv)
  · intro hpre
    have hlen : (workspace_directory e).length = (e.path ++ ["jsconfig.json"]).length := by
      simp [workspace_directory]
    have heq := hpre.eq_of_length hlen
    have heq2 : e.path ++ [".vscode"] = e.path ++ ["jsconfig.json"] := by
      rw [workspace_directory] at heq
      exact heq
    have : [".vscode"] = ["jsconfig.json"] := List.append_cancel_left heq2
    simp at this

set_option maxRecDepth 8000 in
theorem configure_jsconfig_write_witness :
    (VSCodeEditor.mk ["p"] (.lokal (LocalDatabase.mk "db" "v" "wt" "vp" [] [])) "g"
        "py").database = .lokal (LocalDatabase.mk "db" "v" "wt" "vp" [] []) ∧
      (configure (fun t s => String.intercalate ";" (t :: s.map Prod.snd))
          (VSCodeEditor.mk ["p"] (.lokal (LocalDatabase.mk "db" "v" "wt" "vp" [] [])) "g" "py")
          (FS.mk [] [])).writes[3]? =
        some (["p", "jsconfig.json"],
          "jsconfig.jinja;/wt;" ++ jsonDumps (modulesMappingOf (FS.mk [] []) ["wt"] ["p"])) := by
  constructor
  · rfl
  · rw [(configure_jsconfig_write (fun t s => String.intercalate ";" (t :: s.map Prod.snd))
      (VSCodeEditor.mk ["p"] (.lokal (LocalDatabase.mk "db" "v" "wt" "vp" [] [])) "g" "py")
      (FS.mk [] []) (LocalDatabase.mk "db" "v" "wt" "vp" [] []) rfl).1]
    decide

/-! ### Relative paths and the scan against the worktree root -/

theorem commonLen_le_left : ∀ s t : FPath, commonLen s t ≤ s.length := by
  intro s
  induction s with
  | nil => intro t; cases t <;> simp [commonLen]
  | cons a as ih =>
      intro t
      cases t with
      | nil => simp [commonLen]
      | cons b bs =>
          by_cases h : a = b
          · simpa [commonLen, h] using ih bs
          · simp [commonLen, h]

theorem commonLen_eq_length_iff : ∀ s t : FPath, commonLen s t = s.length ↔ s <+: t := by
  intro s
  induction s with
  | nil => intro t; simp [commonLen]
  | cons a as ih =>
      intro t
      cases t with
      | nil =>
          constructor
          · intro h
            simp [commonLen] at h
          · intro h
            exact absurd (List.eq_nil_of_prefix_nil h) (by simp)
      | cons b bs =>
          by_cases h : a = b
          · subst h
            simp only [commonLen, if_true, List.length_cons, Nat.add_right_cancel_iff,
              List.cons_prefix_cons, true_and]
            exact ih bs
          · simp [commonLen, h, List.cons_prefix_cons]

theorem mem_relpathSegs_dotdot {target start : FPath} (h : ¬ start <+: target) :
    ".." ∈ relpathSegs target start := by
  unfold relpathSegs
  have hlt : commonLen start target < start.length :=
    Nat.lt_of_le_of_ne (commonLen_le_left start target)
      (fun hc => h ((commonLen_eq_length_iff start target).mp hc))
  refine List.mem_append.mpr (Or.inl ?_)
  rw [List.mem_replicate]
  exact ⟨by omega, rfl⟩

theorem isChildOf_iff (d q : FPath) :
    isChildOf d q = true ↔ q.length = d.length + 1 ∧ d <+: q := by
  simp [isChildOf]

theorem exists_child_seg {fs : FS} {d m : FPath} (h : m ∈ fs.iterdir d) :
    ∃ s, m = d ++ [s] := by
  have h2 := (List.mem_filter.mp h).2
  rcases (isChildOf_iff d m).mp h2 with ⟨hlen, t, ht⟩
  have hlen2 : t.length = 1 := by
    have := congrArg List.length ht
    simp at this
    omega
  rcases List.length_eq_one.mp hlen2 with ⟨s, hs⟩
  exact ⟨s, by rw [← ht, hs]⟩

/-- C10 (amended): every entry the scan records — from any of the four
candidate roots, the project directory included — carries the module's
`static/src` path computed relative to the resolved worktree root; and when
the project directory and the worktree root are disjoint (neither is under
the other), every module discovered under the project directory yields a
relative path that climbs out through `..` segments. -/
theorem jsconfig_relpath_root_amended (fs : FS) (root proj : FPath)
    (h1 : ¬ root <+: proj) (h2 : ¬ proj <+: root) :
    (∀ d kv, kv ∈ entriesOf fs root d → ∃ m, m ∈ fs.iterdir d ∧ qualifies fs m ∧
        kv = (aliasStr (lastSeg m), [relpath (m ++ ["static", "src"]) root ++ "/*"])) ∧
      ∀ m ∈ fs.iterdir proj, qualifies fs m →
        ".." ∈ relpathSegs (m ++ ["static", "src"]) root := by
  constructor
  · intro d kv hkv
    rcases List.mem_map.mp hkv with ⟨m, hm, hm2⟩
    rcases List.mem_filter.mp hm with ⟨hmd, hq⟩
    exact ⟨m, hmd, hq, hm2.symm⟩
  · intro m hm _
    rcases exists_child_seg hm with ⟨s, hs⟩
    apply mem_relpathSegs_dotdot
    intro hpre
    by_cases hlen : root.length ≤ proj.length
    · have : root <+: proj := by
        have hpp : proj <+: m ++ ["static", "src"] := by
          rw [hs]
          exact ((proj.prefix_append [s]).trans (List.prefix_append _ _))
        exact List.prefix_of_prefix_length_le hpre hpp hlen
      exact h1 this
    · have : proj <+: root := by
        have hpp : proj <+: m ++ ["static", "src"] := by
          rw [hs]
          exact ((proj.prefix_append [s]).trans (List.prefix_append _ _))
        exact List.prefix_of_prefix_length_le hpp hpre (by omega)
      exact h2 this

theorem jsconfig_relpath_root_amended_witness :
    (¬ (["wt"] : FPath) <+: ["p"]) ∧ (¬ (["p"] : FPath) <+: ["wt"]) ∧
      (∀ m ∈ (FS.mk [["p"], ["p", "m"], ["p", "m", "static"], ["p", "m", "static", "src"]]
          []).iterdir ["p"],
        qualifies (FS.mk [["p"], ["p", "m"], ["p", "m", "static"],
          ["p", "m", "static", "src"]] []) m →
          ".." ∈ relpathSegs (m ++ ["static", "src"]) ["wt"]) ∧
      ["p", "m"] ∈ (FS.mk [["p"], ["p", "m"], ["p", "m", "static"],
        ["p", "m", "static", "src"]] []).iterdir ["p"] ∧
      relpathSegs (["p", "m"] ++ ["static", "src"]) ["wt"] = ["..", "p", "m", "static", "src"] :=
  ⟨by decide, by decide,
   (jsconfig_relpath_root_amended (FS.mk [["p"], ["p", "m"], ["p", "m", "static"],
      ["p", "m", "static", "src"]] []) ["wt"] ["p"] (by decide) (by decide)).2,
   by decide, by decide⟩

/-- C10, counterexample to the claim as stated: with the resolved worktree
root `/p/m` located inside the project directory `/p`, the project directory
is not under the worktree root, yet the module `m` discovered under the
project directory maps to the relative path `static/src` — no `..`
segment. -/
theorem jsconfig_relpath_root_cex :
    (¬ (["p", "m"] : FPath) <+: ["p"]) ∧
      (aliasStr "m", ["static/src/*"]) ∈ entriesOf
        (FS.mk [["p"], ["p", "m"], ["p", "m", "static"], ["p", "m", "static", "src"]] [])
        ["p", "m"] ["p"] ∧
      relpath (["p", "m"] ++ ["static", "src"]) ["p", "m"] = "static/src" ∧
      ".." ∉ relpathSegs (["p", "m"] ++ ["static", "src"]) ["p", "m"] ∧
      lookupKey (aliasStr "m") (pathsMapOf
        (FS.mk [["p"], ["p", "m"], ["p", "m", "static"], ["p", "m", "static", "src"]] [])
        ["p", "m"] ["p"]) = some ["static/src/*"] := by
  refine ⟨by decide, by decide, by decide, by decide, ?_⟩
  decide

/-! ### Order-independence of the scan -/

theorem existsPath_congr {fs₁ fs₂ : FS} (hd : fs₁.dirs.Perm fs₂.dirs)
    (hf : fs₁.files.Perm fs₂.files) (p : FPath) :
    fs₁.existsPath p = fs₂.existsPath p := by
  unfold FS.existsPath
  exact decide_eq_decide.mpr (by rw [hd.mem_iff, hf.mem_iff])

theorem isDir_congr {fs₁ fs₂ : FS} (hd : fs₁.dirs.Perm fs₂.dirs) (p : FPath) :
    fs₁.isDir p = fs₂.isDir p := by
  unfold FS.isDir
  exact decide_eq_decide.mpr (by rw [hd.mem_iff])

theorem qualifies_congr {fs₁ fs₂ : FS} (hd : fs₁.dirs.Perm fs₂.dirs)
    (hf : fs₁.files.Perm fs₂.files) (m : FPath) :
    qualifies fs₁ m = qualifies fs₂ m := by
  unfold qualifies
  rw [isDir_congr hd, existsPath_congr hd hf]

theorem iterdir_perm {fs₁ fs₂ : FS} (hd : fs₁.dirs.Perm fs₂.dirs)
    (hf : fs₁.files.Perm fs₂.files) (d : FPath) :
    (fs₁.iterdir d).Perm (fs₂.iterdir d) :=
  (hd.append hf).filter (isChildOf d)

theorem entriesOf_perm {fs₁ fs₂ : FS} (hd : fs₁.dirs.Perm fs₂.dirs)
    (hf : fs₁.files.Perm fs₂.files) (root d : FPath) :
    (entriesOf fs₁ root d).Perm (entriesOf fs₂ root d) := by
  unfold entriesOf
  have hfil : (fs₂.iterdir d).filter (qualifies fs₂) =
      (fs₂.iterdir d).filter (qualifies fs₁) :=
    List.filter_congr fun m _ => by rw [qualifies_congr hd hf]
  rw [hfil]
  exact ((iterdir_perm hd hf d).filter (qualifies fs₁)).map _

theorem lastSeg_concat (l : FPath) (s : String) : lastSeg (l ++ [s]) = s := by
  simp [lastSeg]

theorem nodup_iterdir {fs : FS} (hWF : fs.WF) (d : FPath) : (fs.iterdir d).Nodup :=
  hWF.1.filter (isChildOf d)

theorem nodupKeys_entriesOf {fs : FS} (hWF : fs.WF) (root d : FPath) :
    ((entriesOf fs root d).map Prod.fst).Nodup := by
  unfold entriesOf
  rw [List.map_map]
  apply List.Nodup.map_on
  · intro m₁ hm₁ m₂ hm₂ heq
    have hc₁ := exists_child_seg (List.mem_of_mem_filter hm₁)
    have hc₂ := exists_child_seg (List.mem_of_mem_filter hm₂)
    rcases hc₁ with ⟨s₁, hs₁⟩
    rcases hc₂ with ⟨s₂, hs₂⟩
    have hseg : lastSeg m₁ = lastSeg m₂ := aliasStr_inj heq
    rw [hs₁, hs₂, lastSeg_concat, lastSeg_concat] at hseg
    rw [hs₁, hs₂, hseg]
  · exact (nodup_iterdir hWF d).filter (qualifies fs)

theorem lastVal_entriesOf_congr {fs₁ fs₂ : FS} (hWF₁ : fs₁.WF)
    (hd : fs₁.dirs.Perm fs₂.dirs) (hf : fs₁.files.Perm fs₂.files) (root d : FPath) (k : String) :
    lastVal k (entriesOf fs₁ root d) = lastVal k (entriesOf fs₂ root d) :=
  lastVal_eq_of_perm (entriesOf_perm hd hf root d) (nodupKeys_entriesOf hWF₁ root d) k

theorem lastVal_flatMap_congr {fs₁ fs₂ : FS} {root₁ root₂ : FPath} (l : List FPath)
    (hex : ∀ d ∈ l, fs₁.existsPath d = fs₂.existsPath d)
    (hent : ∀ d ∈ l, ∀ k, lastVal k (entriesOf fs₁ root₁ d) = lastVal k (entriesOf fs₂ root₂ d))
    (k : String) :
    lastVal k (l.flatMap fun d => if fs₁.existsPath d then entriesOf fs₁ root₁ d else []) =
      lastVal k (l.flatMap fun d => if fs₂.existsPath d then entriesOf fs₂ root₂ d else []) := by
  induction l with
  | nil => rfl
  | cons d t ih =>
      rw [List.flatMap_cons, List.flatMap_cons, lastVal_append, lastVal_append]
      rw [ih (fun d' hd' => hex d' (List.mem_cons_of_mem d hd'))
        (fun d' hd' => hent d' (List.mem_cons_of_mem d hd'))]
      rw [← hex d (List.mem_cons_self d t)]
      by_cases h : fs₁.existsPath d = true
      · rw [if_pos h, if_pos h, hent d (List.mem_cons_self d t) k]
      · rw [if_neg h, if_neg h]

/-- C7: the serialized addon path map is deterministic: two filesystems
that hold the same directories and files, enumerated in any order, produce
identical serialized output, and its keys appear in sorted order. -/
theorem jsconfig_serialization_deterministic (fs₁ fs₂ : FS) (root proj : FPath)
    (hWF₁ : fs₁.WF) (hd : fs₁.dirs.Perm fs₂.dirs) (hf : fs₁.files.Perm fs₂.files) :
    jsonDumps (modulesMappingOf fs₁ root proj) = jsonDumps (modulesMappingOf fs₂ root proj) ∧
      (modulesMappingOf fs₁ root proj).Pairwise keyLE := by
  refine ⟨?_, sorted_sortPairs _⟩
  have hmap : modulesMappingOf fs₁ root proj = modulesMappingOf fs₂ root proj := by
    apply modulesMapping_eq_of_lastVal_eq
    intro k
    exact lastVal_flatMap_congr (addon_dirs root proj)
      (fun d _ => existsPath_congr hd hf d)
      (fun d _ k' => lastVal_entriesOf_congr hWF₁ hd hf root d k') k
  rw [hmap]

theorem jsconfig_serialization_deterministic_witness :
    (FS.mk [["a"], ["a", "x"], ["a", "y"], ["a", "x", "static"], ["a", "x", "static", "src"]]
        [["a", "z"]]).WF ∧
      (FS.mk [["a"], ["a", "x"], ["a", "y"], ["a", "x", "static"],
        ["a", "x", "static", "src"]] [["a", "z"]]).dirs.Perm
        (FS.mk [["a", "y"], ["a", "x", "static", "src"], ["a"], ["a", "x", "static"],
          ["a", "x"]] [["a", "z"]]).dirs ∧
      (FS.mk [["a"], ["a", "x"], ["a", "y"], ["a", "x", "static"],
        ["a", "x", "static", "src"]] [["a", "z"]]).files.Perm
        (FS.mk [["a", "y"], ["a", "x", "static", "src"], ["a"], ["a", "x", "static"],
          ["a", "x"]] [["a", "z"]]).files ∧
      jsonDumps (modulesMappingOf (FS.mk [["a"], ["a", "x"], ["a", "y"], ["a", "x", "static"],
          ["a", "x", "static", "src"]] [["a", "z"]]) ["r"] ["a"]) =
        jsonDumps (modulesMappingOf (FS.mk [["a", "y"], ["a", "x", "static", "src"], ["a"],
          ["a", "x", "static"], ["a", "x"]] [["a", "z"]]) ["r"] ["a"]) :=
  ⟨by decide, by decide, by decide,
   (jsconfig_serialization_deterministic (FS.mk [["a"], ["a", "x"], ["a", "y"],
      ["a", "x", "static"], ["a", "x", "static", "src"]] [["a", "z"]])
      (FS.mk [["a", "y"], ["a", "x", "static", "src"], ["a"], ["a", "x", "static"],
        ["a", "x"]] [["a", "z"]]) ["r"] ["a"] (by decide) (by decide) (by decide)).1⟩

/-! ### Idempotence of configure -/

theorem concat_injective {l₁ l₂ : List String} {a b : String} (h : l₁ ++ [a] = l₂ ++ [b]) :
    l₁ = l₂ ∧ a = b := by
  have h1 : l₁ = l₂ := by
    have h2 := congrArg List.dropLast h
    rwa [List.dropLast_concat, List.dropLast_concat] at h2
  subst h1
  exact ⟨rfl, List.singleton_inj.mp (List.append_cancel_left h)⟩

theorem ne_of_length_ne {p q : FPath} (h : p.length ≠ q.length) : p ≠ q :=
  fun he => h (he ▸ rfl)

theorem ne_of_lastSeg_ne {p q : FPath} (h : lastSeg p ≠ lastSeg q) : p ≠ q :=
  fun he => h (he ▸ rfl)

theorem codeWorkspace_ne_short {n s : String} (hs : s.length < 15) :
    ¬ n ++ ".code-workspace" = s := by
  intro h
  have hlen := congrArg String.length h
  rw [String.length_append] at hlen
  have h15 : (".code-workspace" : String).length = 15 := by decide
  omega

theorem prefixesOf_concat (l : FPath) (a : String) :
    prefixesOf (l ++ [a]) = prefixesOf l ++ [l ++ [a]] := by
  induction l with
  | nil => rfl
  | cons s rest ih =>
      show prefixesOf (s :: (rest ++ [a])) = _
      rw [prefixesOf, ih]
      simp [prefixesOf]

theorem ancestors_in_dirs {fs : FS} (hWF : fs.WF) :
    ∀ p, p ∈ fs.dirs → ∀ q ∈ prefixesOf p, q ∈ fs.dirs := by
  intro p
  induction p using List.reverseRecOn with
  | nil => intro _ q hq; simp [prefixesOf] at hq
  | append_singleton l a ih =>
      intro hp q hq
      rw [prefixesOf_concat] at hq
      rcases List.mem_append.mp hq with hq | hq
      · have hl : l ∈ fs.dirs := by
          rcases List.eq_nil_or_concat l with hnil | ⟨l', a', hl'⟩
          · subst hnil
            simp [prefixesOf] at hq
          · have hlen : 2 ≤ (l ++ [a]).length := by
              rw [hl']
              simp
            have := hWF.2 (l ++ [a]) (List.mem_append.mpr (Or.inl hp)) hlen
            rwa [List.dropLast_concat] at this
        exact ih hl q hq
      · rw [List.mem_singleton] at hq
        exact hq ▸ hp

theorem foldl_writeFile_dirs (ps : List FPath) :
    ∀ fs0 : FS, (ps.foldl FS.writeFile fs0).dirs = fs0.dirs := by
  induction ps with
  | nil => intro fs0; rfl
  | cons p t ih => intro fs0; rw [List.foldl_cons, ih]; rfl

theorem foldl_writeFile_files (ps : List FPath) :
    ∀ fs0 : FS, ∃ nf : List FPath, (ps.foldl FS.writeFile fs0).files = fs0.files ++ nf ∧
      nf.Nodup ∧ ∀ q ∈ nf, q ∈ ps ∧ q ∉ fs0.files := by
  induction ps with
  | nil => exact fun fs0 => ⟨[], by simp, List.nodup_nil, by simp⟩
  | cons p t ih =>
      intro fs0
      rcases ih (fs0.writeFile p) with ⟨nf', hfiles, hnd, hmem⟩
      rw [List.foldl_cons]
      by_cases hp : p ∈ fs0.files
      · have hw : (fs0.writeFile p).files = fs0.files := by simp [FS.writeFile, hp]
        refine ⟨nf', by rw [hfiles, hw], hnd, fun q hq => ?_⟩
        have h2 := hmem q hq
        rw [hw] at h2
        exact ⟨List.mem_cons_of_mem p h2.1, h2.2⟩
      · have hw : (fs0.writeFile p).files = fs0.files ++ [p] := by simp [FS.writeFile, hp]
        refine ⟨p :: nf', ?_, ?_, fun q hq => ?_⟩
        · rw [hfiles, hw]
          simp
        · rw [List.nodup_cons]
          refine ⟨fun hpnf => ?_, hnd⟩
          have := (hmem p hpnf).2
          rw [hw] at this
          exact this (List.mem_append.mpr (Or.inr (List.mem_singleton.mpr rfl)))
        · rcases List.mem_cons.mp hq with hq | hq
          · exact ⟨hq ▸ List.mem_cons_self p t, hq ▸ hp⟩
          · have h2 := (hmem q hq).2
            rw [hw] at h2
            exact ⟨List.mem_cons_of_mem p (hmem q hq).1,
              fun hcon => h2 (List.mem_append.mpr (Or.inl hcon))⟩

/-- The workspace directory created by `configure`. -/
def wsDir (proj : FPath) : FPath := proj ++ [".vscode"]

/-- The four file paths written by `configure`, in write order. -/
def wsFiles (proj : FPath) (dbn : String) : List FPath :=
  [wsDir proj ++ [dbn ++ ".code-workspace"], wsDir proj ++ ["launch.json"],
   wsDir proj ++ ["tasks.json"], proj ++ ["jsconfig.json"]]

/-- The filesystem after the effects of one local-database `configure` run. -/
def afterRun (fs : FS) (proj : FPath) (dbn : String) : FS :=
  (wsFiles proj dbn).foldl FS.writeFile (fs.mkdirAll (wsDir proj))

theorem applyResult_eq_afterRun (render : String → Subst → String) (e : VSCodeEditor)
    (fs : FS) (db : LocalDatabase) (h : e.database = .lokal db) :
    applyResult fs (configure render e fs) = afterRun fs e.path db.name := by
  unfold configure
  rw [h]
  unfold applyResult afterRun wsFiles wsDir
  simp only [List.map_cons, List.map_nil, List.foldl_cons, List.foldl_nil,
    create_workspace_write, create_launch_write, create_tasks_write, create_jsconfig_write,
    workspace_path, launch_path, tasks_path, workspace_directory, Database.dbName, h]

theorem afterRun_dirs {fs : FS} (hWF : fs.WF) {proj : FPath} (hproj : proj ∈ fs.dirs)
    (dbn : String) :
    (afterRun fs proj dbn).dirs =
      fs.dirs ++ (if wsDir proj ∈ fs.dirs then [] else [wsDir proj]) := by
  unfold afterRun
  rw [foldl_writeFile_dirs]
  unfold FS.mkdirAll wsDir
  rw [prefixesOf_concat]
  rw [List.filter_append]
  have h1 : (prefixesOf proj).filter (fun q => ¬ q ∈ fs.dirs) = [] := by
    rw [List.filter_eq_nil_iff]
    intro q hq
    simp only [decide_not, Bool.not_eq_true, Bool.not_eq_false', decide_eq_true_eq]
    exact ancestors_in_dirs hWF proj hproj q hq
  rw [h1, List.nil_append]
  by_cases h2 : proj ++ [".vscode"] ∈ fs.dirs
  · simp [h2]
  · simp [h2]

theorem afterRun_files (fs : FS) (proj : FPath) (dbn : String) :
    ∃ nf : List FPath, (afterRun fs proj dbn).files = fs.files ++ nf ∧ nf.Nodup ∧
      ∀ q ∈ nf, q ∈ wsFiles proj dbn ∧ q ∉ fs.files := by
  unfold afterRun
  have hmk : (fs.mkdirAll (wsDir proj)).files = fs.files := rfl
  rcases foldl_writeFile_files (wsFiles proj dbn) (fs.mkdirAll (wsDir proj)) with
    ⟨nf, hfiles, hnd, hmem⟩
  rw [hmk] at hfiles
  exact ⟨nf, hfiles, hnd, fun q hq => ⟨(hmem q hq).1, by
    have := (hmem q hq).2
    rwa [hmk] at this⟩⟩

theorem bool_eq_of_iff {a b : Bool} (h : a = true ↔ b = true) : a = b := by
  cases a <;> cases b <;> simp_all

theorem existsPath_iff (fs : FS) (p : FPath) :
    fs.existsPath p = true ↔ p ∈ fs.dirs ∨ p ∈ fs.files := by
  simp [FS.existsPath]

theorem isDir_iff (fs : FS) (p : FPath) : fs.isDir p = true ↔ p ∈ fs.dirs := by
  simp [FS.isDir]

theorem qualifies_iff (fs : FS) (m : FPath) :
    qualifies fs m = true ↔ fs.isDir m = true ∧ fs.existsPath (m ++ ["static", "src"]) = true := by
  simp [qualifies]

theorem qualifies_congr2 {fs₁ fs₂ : FS} {m : FPath} (hi : fs₁.isDir m = fs₂.isDir m)
    (he : fs₁.existsPath (m ++ ["static", "src"]) = fs₂.existsPath (m ++ ["static", "src"])) :
    qualifies fs₁ m = qualifies fs₂ m := by
  unfold qualifies
  rw [hi, he]

theorem lastSeg_append_two (l : FPath) (a b : String) : lastSeg (l ++ [a, b]) = b := by
  have h : l ++ [a, b] = (l ++ [a]) ++ [b] := by simp
  rw [h, lastSeg_concat]

theorem addon_dirs_ne_wsDir (root proj : FPath) : ∀ d ∈ addon_dirs root proj, d ≠ wsDir proj := by
  intro d hd
  have hd' : d = root ++ ["addons"] ∨ d = root ++ ["odoo", "addons"] ∨
      d = root ++ ["enterprise"] ∨ d = proj := by
    simpa [addon_dirs] using hd
  unfold wsDir
  rcases hd' with h | h | h | h
  · subst h
    intro h
    exact absurd (concat_injective h).2 (by decide)
  · subst h
    intro h
    have h2 : (root ++ ["odoo"]) ++ ["addons"] = proj ++ [".vscode"] := by
      rw [← h]
      simp
    exact absurd (concat_injective h2).2 (by decide)
  · subst h
    intro h
    exact absurd (concat_injective h).2 (by decide)
  · subst h
    exact ne_of_length_ne (by simp)

theorem staticSrc_ne_wsDir (m proj : FPath) : m ++ ["static", "src"] ≠ wsDir proj := by
  apply ne_of_lastSeg_ne
  rw [lastSeg_append_two]
  unfold wsDir
  rw [lastSeg_concat]
  decide

theorem staticSrc_notin_wsFiles (m proj : FPath) (dbn : String) :
    ∀ q ∈ wsFiles proj dbn, m ++ ["static", "src"] ≠ q := by
  intro q hq
  have hq' : q = wsDir proj ++ [dbn ++ ".code-workspace"] ∨ q = wsDir proj ++ ["launch.json"] ∨
      q = wsDir proj ++ ["tasks.json"] ∨ q = proj ++ ["jsconfig.json"] := by
    simpa [wsFiles] using hq
  rcases hq' with h | h | h | h
  · subst h
    apply ne_of_lastSeg_ne
    rw [lastSeg_append_two, lastSeg_concat]
    intro h
    exact codeWorkspace_ne_short (by decide) h.symm
  · subst h
    apply ne_of_lastSeg_ne
    rw [lastSeg_append_two, lastSeg_concat]
    decide
  · subst h
    apply ne_of_lastSeg_ne
    rw [lastSeg_append_two, lastSeg_concat]
    decide
  · subst h
    apply ne_of_lastSeg_ne
    rw [lastSeg_append_two, lastSeg_concat]
    decide

theorem existsPath_afterRun {fs : FS} (hWF : fs.WF) {proj : FPath} (hproj : proj ∈ fs.dirs)
    (dbn : String) (p : FPath) (h1 : p ≠ wsDir proj) (h2 : ∀ q ∈ wsFiles proj dbn, p ≠ q) :
    (afterRun fs proj dbn).existsPath p = fs.existsPath p := by
  rcases afterRun_files fs proj dbn with ⟨nf, hfiles, _, hnfmem⟩
  apply bool_eq_of_iff
  rw [existsPath_iff, existsPath_iff, afterRun_dirs hWF hproj dbn, hfiles]
  constructor
  · rintro (hp | hp)
    · rcases List.mem_append.mp hp with hp | hp
      · exact Or.inl hp
      · by_cases hin : wsDir proj ∈ fs.dirs
        · rw [if_pos hin] at hp
          simp at hp
        · rw [if_neg hin] at hp
          rw [List.mem_singleton] at hp
          exact absurd hp h1
    · rcases List.mem_append.mp hp with hp | hp
      · exact Or.inr hp
      · exact absurd rfl (h2 p (hnfmem p hp).1)
  · rintro (hp | hp)
    · exact Or.inl (List.mem_append.mpr (Or.inl hp))
    · exact Or.inr (List.mem_append.mpr (Or.inl hp))

theorem isDir_afterRun {fs : FS} (hWF : fs.WF) {proj : FPath} (hproj : proj ∈ fs.dirs)
    (dbn : String) (p : FPath) (h1 : p ≠ wsDir proj) :
    (afterRun fs proj dbn).isDir p = fs.isDir p := by
  apply bool_eq_of_iff
  rw [isDir_iff, isDir_iff, afterRun_dirs hWF hproj dbn]
  constructor
  · intro hp
    rcases List.mem_append.mp hp with hp | hp
    · exact hp
    · by_cases hin : wsDir proj ∈ fs.dirs
      · rw [if_pos hin] at hp
        simp at hp
      · rw [if_neg hin] at hp
        rw [List.mem_singleton] at hp
        exact absurd hp h1
  · intro hp
    exact List.mem_append.mpr (Or.inl hp)

theorem staticSrc_exists_imp_dir {fs : FS} (hWF : fs.WF) {m : FPath} (hm : m ≠ [])
    (h : fs.existsPath (m ++ ["static", "src"]) = true) : m ∈ fs.dirs := by
  rw [existsPath_iff] at h
  have hmem : m ++ ["static", "src"] ∈ fs.dirs ++ fs.files := List.mem_append.mpr h
  have hsplit : m ++ ["static", "src"] = (m ++ ["static"]) ++ ["src"] := by simp
  have hlen1 : 2 ≤ (m ++ ["static", "src"]).length := by simp
  have hstat : m ++ ["static"] ∈ fs.dirs := by
    have := hWF.2 _ hmem hlen1
    rw [hsplit, List.dropLast_concat] at this
    exact this
  have hlen2 : 2 ≤ (m ++ ["static"]).length := by
    rcases List.eq_nil_or_concat m with hnil | ⟨l', a', hl'⟩
    · exact absurd hnil hm
    · rw [hl']
      simp
  have := hWF.2 _ (List.mem_append.mpr (Or.inl hstat)) hlen2
  rwa [List.dropLast_concat] at this

theorem wsDir_ne_nil (proj : FPath) : wsDir proj ≠ [] := by
  unfold wsDir
  simp

theorem qualifies_afterRun_wsDir {fs : FS} (hWF : fs.WF) {proj : FPath}
    (hproj : proj ∈ fs.dirs) (dbn : String) (hnot : wsDir proj ∉ fs.dirs) :
    qualifies (afterRun fs proj dbn) (wsDir proj) = false := by
  cases hq : qualifies (afterRun fs proj dbn) (wsDir proj)
  · rfl
  · exfalso
    have h2 := ((qualifies_iff _ _).mp hq).2
    have heq : (afterRun fs proj dbn).existsPath (wsDir proj ++ ["static", "src"]) =
        fs.existsPath (wsDir proj ++ ["static", "src"]) :=
      existsPath_afterRun hWF hproj dbn _ (staticSrc_ne_wsDir _ proj)
        (staticSrc_notin_wsFiles _ proj dbn)
    rw [heq] at h2
    exact hnot (staticSrc_exists_imp_dir hWF (wsDir_ne_nil proj) h2)

theorem child_concat {d q : FPath} {s : String} (hc : isChildOf d (q ++ [s]) = true) : d = q := by
  rcases (isChildOf_iff d (q ++ [s])).mp hc with ⟨hlen, hpre⟩
  have hlen2 : d.length = q.length := by
    simp at hlen
    omega
  have hq : q <+: q ++ [s] := q.prefix_append [s]
  have : d <+: q := List.prefix_of_prefix_length_le hpre hq (le_of_eq hlen2)
  exact this.eq_of_length hlen2

theorem wsFiles_lastSegs (proj : FPath) (dbn : String) :
    ∀ q ∈ wsFiles proj dbn, lastSeg q = dbn ++ ".code-workspace" ∨
      lastSeg q = "launch.json" ∨ lastSeg q = "tasks.json" ∨ lastSeg q = "jsconfig.json" := by
  intro q hq
  have hq' : q = wsDir proj ++ [dbn ++ ".code-workspace"] ∨ q = wsDir proj ++ ["launch.json"] ∨
      q = wsDir proj ++ ["tasks.json"] ∨ q = proj ++ ["jsconfig.json"] := by
    simpa [wsFiles] using hq
  rcases hq' with h | h | h | h <;> subst h <;> rw [lastSeg_concat] <;> simp

theorem wsFiles_lengths (proj : FPath) (dbn : String) :
    ∀ q ∈ wsFiles proj dbn, q.length = proj.length + 2 ∨ q.length = proj.length + 1 := by
  intro q hq
  have hq' : q = wsDir proj ++ [dbn ++ ".code-workspace"] ∨ q = wsDir proj ++ ["launch.json"] ∨
      q = wsDir proj ++ ["tasks.json"] ∨ q = proj ++ ["jsconfig.json"] := by
    simpa [wsFiles] using hq
  rcases hq' with h | h | h | h <;> subst h <;> simp [wsDir]

theorem addon_dirs_notin_wsFiles (root proj : FPath) (dbn : String) :
    ∀ d ∈ addon_dirs root proj, ∀ q ∈ wsFiles proj dbn, d ≠ q := by
  intro d hd q hq
  have hd' : d = root ++ ["addons"] ∨ d = root ++ ["odoo", "addons"] ∨
      d = root ++ ["enterprise"] ∨ d = proj := by
    simpa [addon_dirs] using hd
  have hlast := wsFiles_lastSegs proj dbn q hq
  have hshort : ∀ s : String, s.length < 15 → s ≠ "launch.json" → s ≠ "tasks.json" →
      s ≠ "jsconfig.json" → lastSeg d = s → d ≠ q := by
    intro s hs h1 h2 h3 hls
    apply ne_of_lastSeg_ne
    rw [hls]
    rcases hlast with h | h | h | h <;> rw [h]
    · intro hcon
      exact codeWorkspace_ne_short hs hcon.symm
    · exact h1
    · exact h2
    · exact h3
  rcases hd' with h | h | h | h
  · subst h
    exact hshort "addons" (by decide) (by decide) (by decide) (by decide) (lastSeg_concat _ _)
  · subst h
    exact hshort "addons" (by decide) (by decide) (by decide) (by decide)
      (lastSeg_append_two _ _ _)
  · subst h
    exact hshort "enterprise" (by decide) (by decide) (by decide) (by decide) (lastSeg_concat _ _)
  · rw [h]
    apply ne_of_length_ne
    rcases wsFiles_lengths proj dbn q hq with h2 | h2 <;> omega

theorem existsPath_afterRun_addon {fs : FS} (hWF : fs.WF) {proj : FPath}
    (hproj : proj ∈ fs.dirs) (dbn : String) (root : FPath) :
    ∀ d ∈ addon_dirs root proj, (afterRun fs proj dbn).existsPath d = fs.existsPath d :=
  fun d hd => existsPath_afterRun hWF hproj dbn d (addon_dirs_ne_wsDir root proj d hd)
    (addon_dirs_notin_wsFiles root proj dbn d hd)

theorem entriesOf_afterRun {fs : FS} (hWF : fs.WF) {proj : FPath}
    (hproj : proj ∈ fs.dirs) (dbn : String) (root : FPath) {d : FPath}
    (hd : d ∈ addon_dirs root proj) :
    entriesOf (afterRun fs proj dbn) root d = entriesOf fs root d ∨
      ∃ kv ∈ entriesOf fs root d,
        entriesOf (afterRun fs proj dbn) root d = entriesOf fs root d ++ [kv] := by
  obtain ⟨nf, hfiles, hnfnd, hnfmem⟩ := afterRun_files fs proj dbn
  have hdirs := afterRun_dirs hWF hproj dbn
  have hdne := addon_dirs_ne_wsDir root proj d hd
  have hdisj : ∀ m ∈ fs.files, m ∉ fs.dirs := by
    have hnd := hWF.1
    rw [List.nodup_append] at hnd
    intro m hm hmd
    exact hnd.2.2 hmd hm
  have hiter2 : (afterRun fs proj dbn).iterdir d =
      fs.dirs.filter (isChildOf d) ++
        (if wsDir proj ∈ fs.dirs then [] else [wsDir proj]).filter (isChildOf d) ++
        (fs.files.filter (isChildOf d) ++ nf.filter (isChildOf d)) := by
    show ((afterRun fs proj dbn).dirs ++ (afterRun fs proj dbn).files).filter (isChildOf d) = _
    rw [hdirs, hfiles, List.filter_append, List.filter_append, List.filter_append]
  have hiterfs : fs.iterdir d =
      fs.dirs.filter (isChildOf d) ++ fs.files.filter (isChildOf d) := by
    show (fs.dirs ++ fs.files).filter (isChildOf d) = _
    rw [List.filter_append]
  have hqA : ∀ m ∈ fs.dirs.filter (isChildOf d),
      qualifies (afterRun fs proj dbn) m = qualifies fs m := by
    intro m hm
    have hmd := List.mem_of_mem_filter hm
    apply qualifies_congr2
    · have h1 : fs.isDir m = true := (isDir_iff fs m).mpr hmd
      have h2 : (afterRun fs proj dbn).isDir m = true := by
        rw [isDir_iff, hdirs]
        exact List.mem_append.mpr (Or.inl hmd)
      rw [h1, h2]
    · exact existsPath_afterRun hWF hproj dbn _ (staticSrc_ne_wsDir m proj)
        (staticSrc_notin_wsFiles m proj dbn)
  have hqB : ∀ m ∈ fs.files.filter (isChildOf d), ¬ qualifies fs m = true := by
    intro m hm hq
    exact hdisj m (List.mem_of_mem_filter hm)
      ((isDir_iff fs m).mp ((qualifies_iff fs m).mp hq).1)
  have hqB' : ∀ m ∈ fs.files.filter (isChildOf d),
      ¬ qualifies (afterRun fs proj dbn) m = true := by
    intro m hm hq
    have hmf := List.mem_of_mem_filter hm
    have h1 := ((qualifies_iff _ m).mp hq).1
    rw [isDir_iff, hdirs] at h1
    rcases List.mem_append.mp h1 with h1 | h1
    · exact hdisj m hmf h1
    · by_cases hin : wsDir proj ∈ fs.dirs
      · rw [if_pos hin] at h1
        simp at h1
      · rw [if_neg hin] at h1
        rw [List.mem_singleton] at h1
        subst h1
        rw [qualifies_afterRun_wsDir hWF hproj dbn hin] at hq
        exact Bool.false_ne_true hq
  have hND : ((if wsDir proj ∈ fs.dirs then [] else [wsDir proj]).filter
      (isChildOf d)).filter (qualifies (afterRun fs proj dbn)) = [] := by
    by_cases hin : wsDir proj ∈ fs.dirs
    · rw [if_pos hin]
      rfl
    · rw [if_neg hin]
      have hqws := qualifies_afterRun_wsDir hWF hproj dbn hin
      cases hc : isChildOf d (wsDir proj) <;>
        simp [List.filter_cons, List.filter_nil, hc, hqws]
  have hNFc : ∀ q ∈ nf.filter (isChildOf d), q = proj ++ ["jsconfig.json"] ∧ d = proj := by
    intro q hq
    have hqnf := List.mem_of_mem_filter hq
    have hqc := List.of_mem_filter hq
    have hqws := (hnfmem q hqnf).1
    have hq' : q = wsDir proj ++ [dbn ++ ".code-workspace"] ∨ q = wsDir proj ++ ["launch.json"] ∨
        q = wsDir proj ++ ["tasks.json"] ∨ q = proj ++ ["jsconfig.json"] := by
      simpa [wsFiles] using hqws
    rcases hq' with h | h | h | h
    · subst h
      exact absurd (child_concat hqc) hdne
    · subst h
      exact absurd (child_concat hqc) hdne
    · subst h
      exact absurd (child_concat hqc) hdne
    · subst h
      exact ⟨rfl, child_concat hqc⟩
  have hNFcases : nf.filter (isChildOf d) = [] ∨
      nf.filter (isChildOf d) = [proj ++ ["jsconfig.json"]] := by
    have hnd2 : (nf.filter (isChildOf d)).Nodup := hnfnd.filter _
    match hl : nf.filter (isChildOf d), hNFc, hnd2 with
    | [], _, _ => exact Or.inl rfl
    | [a], hall, _ => exact Or.inr (by rw [(hall a (by simp)).1])
    | a :: b :: t, hall, hnd3 =>
        exfalso
        have ha := (hall a (by simp)).1
        have hb := (hall b (by simp)).1
        rw [List.nodup_cons] at hnd3
        exact hnd3.1 (by rw [ha, hb]; simp)
  have hentfs : entriesOf fs root d =
      ((fs.dirs.filter (isChildOf d)).filter (qualifies fs)).map
        (fun m => (aliasStr (lastSeg m), [relpath (m ++ ["static", "src"]) root ++ "/*"])) := by
    unfold entriesOf
    rw [hiterfs, List.filter_append, List.filter_eq_nil_iff.mpr hqB, List.append_nil]
  have hent' : entriesOf (afterRun fs proj dbn) root d =
      ((fs.dirs.filter (isChildOf d)).filter (qualifies fs)).map
        (fun m => (aliasStr (lastSeg m), [relpath (m ++ ["static", "src"]) root ++ "/*"])) ++
      ((nf.filter (isChildOf d)).filter (qualifies (afterRun fs proj dbn))).map
        (fun m => (aliasStr (lastSeg m), [relpath (m ++ ["static", "src"]) root ++ "/*"])) := by
    unfold entriesOf
    rw [hiter2, List.filter_append, List.filter_append, List.filter_append, hND,
      List.filter_eq_nil_iff.mpr hqB', List.filter_congr hqA, List.append_nil,
      List.nil_append, List.map_append]
  rcases hNFcases with hNF | hNF
  · left
    rw [hent', hNF, hentfs]
    simp
  · rw [hent', hNF]
    cases hqJ : qualifies (afterRun fs proj dbn) (proj ++ ["jsconfig.json"])
    · left
      rw [hentfs]
      simp [List.filter_cons, hqJ]
    · have hJdirs : proj ++ ["jsconfig.json"] ∈ fs.dirs := by
        have h1 := ((qualifies_iff _ _).mp hqJ).1
        rw [isDir_iff, hdirs] at h1
        rcases List.mem_append.mp h1 with h1 | h1
        · exact h1
        · by_cases hin : wsDir proj ∈ fs.dirs
          · rw [if_pos hin] at h1
            simp at h1
          · rw [if_neg hin] at h1
            rw [List.mem_singleton] at h1
            exact absurd h1 (by
              apply ne_of_lastSeg_ne
              rw [lastSeg_concat]
              unfold wsDir
              rw [lastSeg_concat]
              decide)
      have hJex : fs.existsPath (proj ++ ["jsconfig.json"] ++ ["static", "src"]) = true := by
        have h2 := ((qualifies_iff _ _).mp hqJ).2
        rwa [existsPath_afterRun hWF hproj dbn _ (staticSrc_ne_wsDir _ proj)
          (staticSrc_notin_wsFiles _ proj dbn)] at h2
      have hqJfs : qualifies fs (proj ++ ["jsconfig.json"]) = true :=
        (qualifies_iff fs _).mpr ⟨(isDir_iff fs _).mpr hJdirs, hJex⟩
      have hJd : d = proj := by
        have := hNFc (proj ++ ["jsconfig.json"]) (by rw [hNF]; simp)
        exact this.2
      have hJA : proj ++ ["jsconfig.json"] ∈
          (fs.dirs.filter (isChildOf d)).filter (qualifies fs) := by
        apply List.mem_filter.mpr
        refine ⟨List.mem_filter.mpr ⟨hJdirs, ?_⟩, hqJfs⟩
        rw [hJd]
        apply (isChildOf_iff proj (proj ++ ["jsconfig.json"])).mpr
        exact ⟨by simp, proj.prefix_append _⟩
      right
      refine ⟨(aliasStr (lastSeg (proj ++ ["jsconfig.json"])),
        [relpath (proj ++ ["jsconfig.json"] ++ ["static", "src"]) root ++ "/*"]), ?_, ?_⟩
      · rw [hentfs]
        exact List.mem_map_of_mem _ hJA
      · rw [hentfs]
        simp [List.filter_cons, hqJ]

theorem lastVal_entriesOf_afterRun {fs : FS} (hWF : fs.WF) {proj : FPath}
    (hproj : proj ∈ fs.dirs) (dbn : String) (root : FPath) {d : FPath}
    (hd : d ∈ addon_dirs root proj) (k : String) :
    lastVal k (entriesOf (afterRun fs proj dbn) root d) = lastVal k (entriesOf fs root d) := by
  rcases entriesOf_afterRun hWF hproj dbn root hd with h | ⟨kv, hkv, h⟩
  · rw [h]
  · rw [h]
    have hmem : (kv.1, kv.2) ∈ entriesOf fs root d := by simpa using hkv
    have := lastVal_concat_mem (nodupKeys_entriesOf hWF root d) hmem k
    simpa using this

/-- C8: `configure` is idempotent under unchanged inputs: running it a second
time on the filesystem left behind by the first run (the project directory
existing and the filesystem well-formed) emits exactly the same effects —
in particular it writes the same content to the same files, fully
overwriting them. -/
theorem configure_idempotent (render : String → Subst → String) (e : VSCodeEditor) (fs : FS)
    (db : LocalDatabase) (h : e.database = .lokal db) (hWF : fs.WF)
    (hproj : e.path ∈ fs.dirs) :
    configure render e (applyResult fs (configure render e fs)) = configure render e fs := by
  rw [applyResult_eq_afterRun render e fs db h]
  have hmap : modulesMappingOf (afterRun fs e.path db.name) (odoo_path db) e.path =
      modulesMappingOf fs (odoo_path db) e.path := by
    apply modulesMapping_eq_of_lastVal_eq
    intro k
    exact lastVal_flatMap_congr (addon_dirs (odoo_path db) e.path)
      (fun d hd => existsPath_afterRun_addon hWF hproj db.name (odoo_path db) d hd)
      (fun d hd k' => lastVal_entriesOf_afterRun hWF hproj db.name (odoo_path db) hd k') k
  unfold configure
  rw [h]
  dsimp only
  unfold create_jsconfig_write
  rw [hmap]

theorem configure_idempotent_witness :
    (VSCodeEditor.mk ["p"] (.lokal (LocalDatabase.mk "db" "v" "wt" "vp" [] [])) "g"
        "py").database = .lokal (LocalDatabase.mk "db" "v" "wt" "vp" [] []) ∧
      (FS.mk [["p"], ["p", "m"], ["p", "m", "static"], ["p", "m", "static", "src"]] []).WF ∧
      ["p"] ∈ (FS.mk [["p"], ["p", "m"], ["p", "m", "static"],
        ["p", "m", "static", "src"]] []).dirs ∧
      configure (fun t s => String.intercalate ";" (t :: s.map Prod.snd))
          (VSCodeEditor.mk ["p"] (.lokal (LocalDatabase.mk "db" "v" "wt" "vp" [] [])) "g" "py")
          (applyResult (FS.mk [["p"], ["p", "m"], ["p", "m", "static"],
              ["p", "m", "static", "src"]] [])
            (configure (fun t s => String.intercalate ";" (t :: s.map Prod.snd))
              (VSCodeEditor.mk ["p"] (.lokal (LocalDatabase.mk "db" "v" "wt" "vp" [] []))
                "g" "py")
              (FS.mk [["p"], ["p", "m"], ["p", "m", "static"],
                ["p", "m", "static", "src"]] []))) =
        configure (fun t s => String.intercalate ";" (t :: s.map Prod.snd))
          (VSCodeEditor.mk ["p"] (.lokal (LocalDatabase.mk "db" "v" "wt" "vp" [] [])) "g" "py")
          (FS.mk [["p"], ["p", "m"], ["p", "m", "static"], ["p", "m", "static", "src"]] []) :=
  ⟨rfl, by decide, by decide,
   configure_idempotent (fun t s => String.intercalate ";" (t :: s.map Prod.snd))
     (VSCodeEditor.mk ["p"] (.lokal (LocalDatabase.mk "db" "v" "wt" "vp" [] [])) "g" "py")
     (FS.mk [["p"], ["p", "m"], ["p", "m", "static"], ["p", "m", "static", "src"]] [])
     (LocalDatabase.mk "db" "v" "wt" "vp" [] []) rfl (by decide) (by decide)⟩
